import Mathlib

/-!
Verification development for the M5-Forecasting repository.

The definitions below are a shallow embedding of the core pipeline:
`src/feature_engineering.py` (lag / rolling feature construction),
`src/model.py` (per-horizon training shift, prediction, clipping),
`src/evaluation.py` (reindex and zero-fill before scoring) and
`src/data_loader.py` (temporal windowing).  DataFrames are lists of rows,
missing values (NaN) are `Option`, dates and group keys are naturals, and
numeric cells are rationals.
-/

namespace M5

/-! ### Generic keyed shift (pandas `df.groupby(key)[col].shift(k)`)

A grouped shift over a flat frame: the cell at row `i` is the value of the
row `k` positions earlier among the rows sharing row `i`'s key, in frame
order, and missing when fewer than `k` such rows precede `i`.  This is the
row-level semantics of `groupby(...).shift(k)` used in
`FeatureEngineer._add_lag_rolling_features` and `HierarchicalLGBM.train`. -/

def kshiftAt {K V : Type} [BEq K] (rows : List (K × V)) (k i : Nat) : Option V :=
  (rows.get? i).bind (fun r =>
    if k = 0 then some r.2
    else
      let p := (rows.take i).filter (fun x => x.1 == r.1)
      if k ≤ p.length then (p.get? (p.length - k)).map (fun x => x.2) else none)

def kshiftCol {K V : Type} [BEq K] (rows : List (K × V)) (k : Nat) : List (Option V) :=
  (List.range rows.length).map (kshiftAt rows k)

/-- The values of the rows whose key is `g`, in frame order (the series of
group `g`). -/
def subvals {K V : Type} [BEq K] (g : K) (rows : List (K × V)) : List V :=
  (rows.filter (fun r => r.1 == g)).map (fun r => r.2)

/-- A derived column `xs` restricted to the rows of group `g`. -/
def subcol {K V α : Type} [BEq K] (g : K) (rows : List (K × V)) (xs : List α) : List α :=
  ((rows.zip xs).filter (fun p => p.1.1 == g)).map (fun p => p.2)

/-- Helper: the keyed shift computed left-to-right with the already-seen
prefix `pre` made explicit. -/
def kshiftFrom {K V : Type} [BEq K] (k : Nat) : List (K × V) → List (K × V) → List (Option V)
  | _, [] => []
  | pre, r :: rs =>
    (if k = 0 then some r.2
     else
       let p := pre.filter (fun x => x.1 == r.1)
       if k ≤ p.length then (p.get? (p.length - k)).map (fun x => x.2) else none)
    :: kshiftFrom k (pre ++ [r]) rs

theorem kshiftFrom_length {K V : Type} [BEq K] (k : Nat) (rows : List (K × V)) :
    ∀ pre : List (K × V), (kshiftFrom k pre rows).length = rows.length := by
  induction rows with
  | nil => intro pre; rfl
  | cons r rs ih => intro pre; simp [kshiftFrom, ih]

theorem kshiftCol_eq_from {K V : Type} [BEq K] (k : Nat) (rows : List (K × V)) :
    kshiftCol rows k = kshiftFrom k [] rows := by
  have main : ∀ (rs pre : List (K × V)),
      (List.range rs.length).map (fun i => kshiftAt (pre ++ rs) k (pre.length + i))
        = kshiftFrom k pre rs := by
    intro rs
    induction rs with
    | nil => intro pre; rfl
    | cons r rs ih =>
      intro pre
      rw [List.length_cons, List.range_succ_eq_map, List.map_cons, List.map_map]
      have hhead : kshiftAt (pre ++ r :: rs) k (pre.length + 0)
          = (if k = 0 then some r.2
             else
               let p := pre.filter (fun x => x.1 == r.1)
               if k ≤ p.length then (p.get? (p.length - k)).map (fun x => x.2) else none) := by
        have hget : (pre ++ r :: rs).get? pre.length = some r := by
          rw [List.get?_append_right (Nat.le_refl _)]
          simp
        have htake : (pre ++ r :: rs).take pre.length = pre := by
          simpa using List.take_left pre (r :: rs)
        simp only [kshiftAt, Nat.add_zero, hget, Option.some_bind, htake]
      rw [hhead]
      have hre : (List.range rs.length).map ((fun i => kshiftAt (pre ++ r :: rs) k (pre.length + i)) ∘ Nat.succ)
          = kshiftFrom k (pre ++ [r]) rs := by
        have hx : ∀ i, kshiftAt (pre ++ r :: rs) k (pre.length + (i + 1))
            = kshiftAt ((pre ++ [r]) ++ rs) k ((pre ++ [r]).length + i) := by
          intro i
          have h1 : pre ++ r :: rs = (pre ++ [r]) ++ rs := by simp
          have h2 : pre.length + (i + 1) = (pre ++ [r]).length + i := by
            simp [List.length_append]; omega
          rw [h1, h2]
        calc (List.range rs.length).map ((fun i => kshiftAt (pre ++ r :: rs) k (pre.length + i)) ∘ Nat.succ)
            = (List.range rs.length).map (fun i => kshiftAt ((pre ++ [r]) ++ rs) k ((pre ++ [r]).length + i)) := by
              apply List.map_congr_left
              intro a _
              simpa using hx a
          _ = kshiftFrom k (pre ++ [r]) rs := ih (pre ++ [r])
      rw [hre]
      rfl
  have h0 := main rows []
  simpa [kshiftCol] using h0

theorem subvals_cons {K V : Type} [BEq K] (g : K) (r : K × V) (rs : List (K × V)) :
    subvals g (r :: rs) = if r.1 == g then r.2 :: subvals g rs else subvals g rs := by
  cases hbe : r.1 == g <;> simp [subvals, List.filter_cons, hbe]

theorem subvals_append {K V : Type} [BEq K] (g : K) (l1 l2 : List (K × V)) :
    subvals g (l1 ++ l2) = subvals g l1 ++ subvals g l2 := by
  simp [subvals]

theorem subcol_cons {K V α : Type} [BEq K] (g : K) (r : K × V) (rs : List (K × V))
    (x : α) (xs : List α) :
    subcol g (r :: rs) (x :: xs) = if r.1 == g then x :: subcol g rs xs else subcol g rs xs := by
  cases hbe : r.1 == g <;> simp [subcol, List.zip_cons_cons, List.filter_cons, hbe]

theorem kshiftFrom_subcol {K V : Type} [BEq K] [LawfulBEq K] (k : Nat) (hk : 1 ≤ k) :
    ∀ (rows pre : List (K × V)) (g : K),
      subcol g rows (kshiftFrom k pre rows)
        = (List.range (subvals g rows).length).map (fun q =>
            if k ≤ (subvals g pre).length + q
            then (subvals g pre ++ subvals g rows).get? ((subvals g pre).length + q - k)
            else none) := by
  intro rows
  induction rows with
  | nil => intro pre g; simp [subcol, kshiftFrom, subvals]
  | cons r rs ih =>
    intro pre g
    cases hbe : r.1 == g with
    | false =>
      have h1 : subvals g (r :: rs) = subvals g rs := by
        rw [subvals_cons, if_neg (by simp [hbe])]
      have h2 : subvals g (pre ++ [r]) = subvals g pre := by
        rw [subvals_append, subvals_cons, if_neg (by simp [hbe])]
        simp [subvals]
      rw [h1, kshiftFrom, subcol_cons, if_neg (by simp [hbe]), ih (pre ++ [r]) g, h2]
    | true =>
      have hg : r.1 = g := eq_of_beq hbe
      subst hg
      have h1 : subvals r.1 (r :: rs) = r.2 :: subvals r.1 rs := by
        rw [subvals_cons, if_pos hbe]
      have h2 : subvals r.1 (pre ++ [r]) = subvals r.1 pre ++ [r.2] := by
        rw [subvals_append, subvals_cons, if_pos hbe]
        simp [subvals]
      rw [kshiftFrom, subcol_cons, if_pos hbe]
      rw [h1, List.length_cons, List.range_succ_eq_map, List.map_cons, List.map_map]
      have hknz : ¬ (k = 0) := by omega
      congr 1
      · -- head entry
        rw [if_neg hknz]
        show (let p := pre.filter (fun x => x.1 == r.1);
              if k ≤ p.length then (p.get? (p.length - k)).map (fun x => x.2) else none) = _
        set p := pre.filter (fun x => x.1 == r.1) with hp
        have hmap : subvals r.1 pre = p.map (fun x => x.2) := rfl
        have hclen : (subvals r.1 pre).length = p.length := by
          rw [hmap, List.length_map]
        by_cases hkc : k ≤ p.length
        · show (if k ≤ p.length then (p.get? (p.length - k)).map (fun x => x.2) else none) = _
          rw [if_pos hkc, if_pos (by omega : k ≤ (subvals r.1 pre).length + 0)]
          have hlt : (subvals r.1 pre).length + 0 - k < (subvals r.1 pre).length := by omega
          rw [List.get?_append hlt, hmap, List.get?_map, List.length_map]
          congr 2
        · show (if k ≤ p.length then (p.get? (p.length - k)).map (fun x => x.2) else none) = _
          rw [if_neg hkc, if_neg (by omega : ¬ (k ≤ (subvals r.1 pre).length + 0))]
      · -- tail
        rw [ih (pre ++ [r]) r.1, h2]
        apply List.map_congr_left
        intro q _
        simp only [Function.comp_apply, List.length_append, List.length_cons,
          List.length_nil]
        have he2 : (subvals r.1 pre ++ [r.2]) ++ subvals r.1 rs
            = subvals r.1 pre ++ r.2 :: subvals r.1 rs := by simp
        have he1 : (subvals r.1 pre).length + (0 + 1) + q = (subvals r.1 pre).length + (q + 1) := by
          omega
        rw [he2, he1]

/-- `groupby(key).shift(k)` restricted to the rows of one group `g` is the
group's own series shifted positionally by `k`. -/
theorem kshift_subcol {K V : Type} [BEq K] [LawfulBEq K] (rows : List (K × V)) (k : Nat)
    (hk : 1 ≤ k) (g : K) :
    subcol g rows (kshiftCol rows k)
      = (List.range (subvals g rows).length).map (fun q =>
          if k ≤ q then (subvals g rows).get? (q - k) else none) := by
  rw [kshiftCol_eq_from, kshiftFrom_subcol k hk rows [] g]
  apply List.map_congr_left
  intro q _
  have h0 : subvals g ([] : List (K × V)) = [] := rfl
  rw [h0]
  simp

/-- The positional form: within every group the shifted column is `k`
missing cells followed by the group's series truncated at the end. -/
theorem kshift_subcol_take {K V : Type} [BEq K] [LawfulBEq K] (rows : List (K × V)) (k : Nat)
    (hk : 1 ≤ k) (g : K) :
    subcol g rows (kshiftCol rows k)
      = List.replicate (min k (subvals g rows).length) none
        ++ ((subvals g rows).take ((subvals g rows).length - k)).map some := by
  rw [kshift_subcol rows k hk g]
  set S := subvals g rows with hS
  apply List.ext_get?
  intro n
  by_cases hn : n < S.length
  · rw [List.get?_map, List.get?_range hn]
    simp only [Option.map_some']
    by_cases hnk : k ≤ n
    · have hminlt : min k S.length ≤ n := by omega
      rw [List.get?_append_right (by simpa using hminlt)]
      rw [List.length_replicate]
      have hlt2 : n - min k S.length < (S.take (S.length - k)).length := by
        simp [List.length_take]; omega
      rw [List.get?_map]
      have hidx : n - min k S.length = n - k := by omega
      rw [hidx]
      have hlt3 : n - k < S.length - k := by omega
      rw [List.get?_take (by omega : n - k < S.length - k)]
      have hsome : S.get? (n - k) = some (S.get ⟨n - k, by omega⟩) := by
        rw [List.get?_eq_get (by omega : n - k < S.length)]
      rw [if_pos hnk, hsome]
      rfl
    · have hlt : n < min k S.length := by omega
      rw [List.get?_append (by simpa using hlt)]
      have hrep : (List.replicate (min k S.length) (none : Option V)).get? n = some none := by
        rw [List.get?_eq_get (by simpa using hlt)]
        simp
      rw [hrep, if_neg hnk]
  · have h1 : ((List.range S.length).map
        (fun q => if k ≤ q then S.get? (q - k) else none)).get? n = none := by
      apply List.get?_eq_none.mpr
      simp only [List.length_map, List.length_range]
      omega
    have h2 : (List.replicate (min k S.length) (none : Option V)
        ++ (S.take (S.length - k)).map some).get? n = none := by
      apply List.get?_eq_none.mpr
      simp only [List.length_append, List.length_replicate, List.length_map, List.length_take]
      omega
    rw [h1, h2]

/-! ### Rolling mean with missing-value propagation

`Series.rolling(w).mean()` with the default `min_periods = w`: the value at
position `i` is the mean of the `w` cells ending at `i`, and is missing
when the window is not yet full or contains a missing cell. -/

def seqOpt {α : Type} : List (Option α) → Option (List α)
  | [] => some []
  | none :: _ => none
  | some a :: t => (seqOpt t).map (fun l => a :: l)

theorem seqOpt_map_some {α : Type} (l : List α) : seqOpt (l.map some) = some l := by
  induction l with
  | nil => rfl
  | cons a t ih => simp [seqOpt, ih]

theorem seqOpt_eq_none_of_mem {α : Type} (l : List (Option α)) (h : none ∈ l) :
    seqOpt l = none := by
  induction l with
  | nil => cases h
  | cons x t ih =>
    cases x with
    | none => rfl
    | some a =>
      cases List.mem_cons.mp h with
      | inl h0 => exact Option.noConfusion h0
      | inr h0 => simp [seqOpt, ih h0]

def windowAt (xs : List (Option ℚ)) (w i : Nat) : Option ℚ :=
  if w ≤ i + 1 then
    (seqOpt ((xs.take (i + 1)).drop (i + 1 - w))).map (fun vs => vs.sum / (w : ℚ))
  else none

/-! ### The panel rows used by `_add_lag_rolling_features`

A row carries the grouping-key value `g`, the date and the source-signal
value (`sales` at the bottom level, the aggregated mean otherwise).  The
function first sorts by `(group, date)`, then computes every lag column as
a grouped shift and every rolling column as a grouped one-step shift
followed by a flat rolling mean — exactly
`grp.shift(lag)` / `grp.shift(1).rolling(window).mean()` on the sorted
frame. -/

structure SRow where
  g : Nat
  date : Nat
  v : ℚ
deriving DecidableEq

def keyLE (a b : SRow) : Prop := a.g < b.g ∨ (a.g = b.g ∧ a.date ≤ b.date)

instance : DecidableRel keyLE := fun a b => by
  unfold keyLE; exact inferInstance

instance : IsTotal SRow keyLE := ⟨by intro a b; unfold keyLE; omega⟩

instance : IsTrans SRow keyLE := ⟨by intro a b c hab hbc; unfold keyLE at *; omega⟩

/-- `df.sort_values(groupby_cols + ["date"])`. -/
def sortRows (rows : List SRow) : List SRow := List.insertionSort keyLE rows

theorem sortRows_sorted (rows : List SRow) : List.Sorted keyLE (sortRows rows) :=
  List.sorted_insertionSort keyLE rows

theorem sortRows_perm (rows : List SRow) : List.Perm (sortRows rows) rows :=
  List.perm_insertionSort keyLE rows

def toPairs (s : List SRow) : List (Nat × ℚ) := s.map (fun r => (r.g, r.v))

/-- The source-signal values of the rows of the same group strictly before
row `i`, in frame order. -/
def priorSame (s : List SRow) (i : Nat) : List ℚ :=
  match s.get? i with
  | none => []
  | some r => ((s.take i).filter (fun x => x.g == r.g)).map (fun x => x.v)

/-- The lag-`k` feature column produced by `_add_lag_rolling_features`:
sort, then `grp.shift(lag)`. -/
def lagFeatureCol (rows : List SRow) (k : Nat) : List (Option ℚ) :=
  kshiftCol (toPairs (sortRows rows)) k

/-- One cell of the rolling feature on an already-sorted frame:
`grp.shift(1).rolling(window).mean()` at flat position `i`. -/
def rollCell (s : List SRow) (w i : Nat) : Option ℚ :=
  windowAt (kshiftCol (toPairs s) 1) w i

/-- The rolling-`w` feature column produced by `_add_lag_rolling_features`. -/
def rollFeatureCol (rows : List SRow) (w : Nat) : List (Option ℚ) :=
  (List.range (sortRows rows).length).map (rollCell (sortRows rows) w)

/-- Replace the source-signal value of row `j`, keeping its key and date. -/
def setVal (s : List SRow) (j : Nat) (x : ℚ) : List SRow :=
  match s.get? j with
  | none => s
  | some r => s.set j ⟨r.g, r.date, x⟩

/-- A Boolean-monotone predicate on a list selects a suffix. -/
theorem filter_eq_drop_of_pairwise {α : Type} (p : α → Bool) (l : List α)
    (h : l.Pairwise (fun a b => p a = true → p b = true)) :
    l.filter p = l.drop (l.length - (l.filter p).length) := by
  induction l with
  | nil => rfl
  | cons a t ih =>
    have hhead : ∀ b ∈ t, p a = true → p b = true := (List.pairwise_cons.mp h).1
    have htail := (List.pairwise_cons.mp h).2
    cases hpa : p a with
    | true =>
      have hall : ∀ b ∈ t, p b = true := fun b hb => hhead b hb hpa
      have hfull : (a :: t).filter p = a :: t := by
        apply List.filter_eq_self.mpr
        intro b hb
        cases List.mem_cons.mp hb with
        | inl h0 => rw [h0]; exact hpa
        | inr h0 => exact hall b h0
      rw [hfull]
      simp
    | false =>
      have hstep : (a :: t).filter p = t.filter p := by
        simp [List.filter_cons, hpa]
      have hle : (t.filter p).length ≤ t.length := List.length_filter_le p t
      have harith : (a :: t).length - (t.filter p).length = (t.length - (t.filter p).length) + 1 := by
        simp only [List.length_cons]; omega
      rw [hstep, harith, List.drop_succ_cons, ih htail, List.length_drop]
      congr 1
      omega

/-- On a frame sorted by `(group, date)`, the rows of row `i`'s group
strictly before `i` form the contiguous slice of positions
`[i - (priorSame s i).length, i)`. -/
theorem sorted_block (s : List SRow) (hs : List.Sorted keyLE s) (i : Nat) (ri : SRow)
    (hri : s.get? i = some ri) :
    (priorSame s i).length ≤ i
    ∧ (∀ j, i - (priorSame s i).length ≤ j → j ≤ i →
        (s.take j).filter (fun x => x.g == ri.g) = (s.take j).drop (i - (priorSame s i).length))
    ∧ (∀ j rj, i - (priorSame s i).length ≤ j → j < i → s.get? j = some rj → rj.g = ri.g) := by
  obtain ⟨hi, hgi⟩ := List.get?_eq_some.mp hri
  have hmono : ∀ (j1 j2 : Fin s.length), (j1 : Nat) < (j2 : Nat) → (s.get j1).g ≤ (s.get j2).g := by
    intro j1 j2 h12
    have h := List.Sorted.rel_get_of_lt hs (a := j1) (b := j2) h12
    unfold keyLE at h
    omega
  have hlentake : (s.take i).length = i := by rw [List.length_take]; omega
  have hpair : (s.take i).Pairwise
      (fun a b => (a.g == ri.g) = true → (b.g == ri.g) = true) := by
    rw [List.pairwise_iff_get]
    intro j1 j2 h12 hp1
    have hj1 : (j1 : Nat) < i := by have := j1.isLt; omega
    have hj2 : (j2 : Nat) < i := by have := j2.isLt; omega
    have hj1s : (j1 : Nat) < s.length := by omega
    have hj2s : (j2 : Nat) < s.length := by omega
    have he1 : (s.take i).get j1 = s.get ⟨j1, hj1s⟩ := by
      simp [List.get_eq_getElem]
    have he2 : (s.take i).get j2 = s.get ⟨j2, hj2s⟩ := by
      simp [List.get_eq_getElem]
    rw [he1] at hp1
    rw [he2]
    have hg1 : (s.get ⟨j1, hj1s⟩).g = ri.g := by
      have := beq_iff_eq.mp hp1
      exact this
    have hle1 : (s.get ⟨j1, hj1s⟩).g ≤ (s.get ⟨j2, hj2s⟩).g := by
      apply hmono
      simpa using h12
    have hle2 : (s.get ⟨j2, hj2s⟩).g ≤ ri.g := by
      have h := hmono ⟨j2, hj2s⟩ ⟨i, hi⟩ (by simpa using hj2)
      rw [hgi] at h
      exact h
    apply beq_iff_eq.mpr
    omega
  have hfil := filter_eq_drop_of_pairwise (fun x => x.g == ri.g) (s.take i) hpair
  have hcp : (priorSame s i)
      = ((s.take i).filter (fun x => x.g == ri.g)).map (fun x => x.v) := by
    unfold priorSame
    rw [hri]
  have hclen : (priorSame s i).length = ((s.take i).filter (fun x => x.g == ri.g)).length := by
    rw [hcp, List.length_map]
  have hcle : (priorSame s i).length ≤ i := by
    rw [hclen]
    calc ((s.take i).filter (fun x => x.g == ri.g)).length
        ≤ (s.take i).length := List.length_filter_le _ _
      _ = i := hlentake
  -- abbreviations
  have hfil2 : (s.take i).filter (fun x => x.g == ri.g)
      = (s.take i).drop (i - (priorSame s i).length) := by
    have h0 := hfil
    rw [hlentake] at h0
    rw [hclen]
    exact h0
  -- every element of the suffix satisfies the predicate
  have hsuf : ∀ x ∈ (s.take i).drop (i - (priorSame s i).length), (x.g == ri.g) = true := by
    intro x hx
    rw [← hfil2] at hx
    exact (List.mem_filter.mp hx).2
  -- the prefix has no element of the group
  have hprefnil : (s.take (i - (priorSame s i).length)).filter (fun x => x.g == ri.g) = [] := by
    have hsplit : s.take i
        = s.take (i - (priorSame s i).length) ++ (s.take i).drop (i - (priorSame s i).length) := by
      have h1 : (s.take i).take (i - (priorSame s i).length)
          = s.take (i - (priorSame s i).length) := by
        rw [List.take_take]
        congr 1
        omega
      rw [← h1, List.take_append_drop]
    have hlen1 : ((s.take i).drop (i - (priorSame s i).length)).length
        = (priorSame s i).length := by
      rw [List.length_drop, hlentake]
      omega
    have hfull : ((s.take i).drop (i - (priorSame s i).length)).filter (fun x => x.g == ri.g)
        = (s.take i).drop (i - (priorSame s i).length) :=
      List.filter_eq_self.mpr hsuf
    have hlensum : ((s.take i).filter (fun x => x.g == ri.g)).length
        = ((s.take (i - (priorSame s i).length)).filter (fun x => x.g == ri.g)).length
          + ((s.take i).drop (i - (priorSame s i).length)).length := by
      conv_lhs => rw [hsplit]
      rw [List.filter_append, List.length_append, hfull]
    have hzero : ((s.take (i - (priorSame s i).length)).filter (fun x => x.g == ri.g)).length = 0 := by
      rw [hlen1] at hlensum
      rw [← hclen] at hlensum
      omega
    exact List.length_eq_zero.mp hzero
  have hpart2 : ∀ j, i - (priorSame s i).length ≤ j → j ≤ i →
      (s.take j).filter (fun x => x.g == ri.g)
        = (s.take j).drop (i - (priorSame s i).length) := by
    intro j hbj hji
    have hsplitj : s.take j
        = s.take (i - (priorSame s i).length) ++ (s.take j).drop (i - (priorSame s i).length) := by
      have h1 : (s.take j).take (i - (priorSame s i).length)
          = s.take (i - (priorSame s i).length) := by
        rw [List.take_take]
        congr 1
        omega
      rw [← h1, List.take_append_drop]
    have hsubsuf : ∀ x ∈ (s.take j).drop (i - (priorSame s i).length), (x.g == ri.g) = true := by
      intro x hx
      apply hsuf
      obtain ⟨t, ht⟩ := List.mem_iff_get?.mp hx
      rw [List.get?_drop] at ht
      have hbt : i - (priorSame s i).length + t < j := by
        obtain ⟨hlt, _⟩ := List.get?_eq_some.mp ht
        rw [List.length_take] at hlt
        omega
      rw [List.get?_take hbt] at ht
      apply List.mem_iff_get?.mpr
      refine ⟨t, ?_⟩
      rw [List.get?_drop, List.get?_take (by omega : i - (priorSame s i).length + t < i)]
      exact ht
    conv_lhs => rw [hsplitj]
    rw [List.filter_append, hprefnil, List.nil_append]
    exact List.filter_eq_self.mpr hsubsuf
  refine ⟨hcle, hpart2, ?_⟩
  intro j rj hbj hji hgetj
  have h2j := hpart2 (j + 1) (by omega) (by omega)
  have hmem : rj ∈ (s.take (j + 1)).drop (i - (priorSame s i).length) := by
    apply List.mem_iff_get?.mpr
    refine ⟨j - (i - (priorSame s i).length), ?_⟩
    rw [List.get?_drop]
    have hb : i - (priorSame s i).length + (j - (i - (priorSame s i).length)) = j := by omega
    rw [hb, List.get?_take (by omega : j < j + 1)]
    exact hgetj
  rw [← h2j] at hmem
  exact beq_iff_eq.mp (List.mem_filter.mp hmem).2

/-- A grouped one-step shift cell inside a group block: the previous row's
value. -/
theorem kshift1_some (s : List SRow) (b j : Nat) (rj : SRow) (hj : s.get? j = some rj)
    (hfil : (s.take j).filter (fun x => x.g == rj.g) = (s.take j).drop b)
    (hbj : b < j) (hjs : j ≤ s.length) :
    kshiftAt (toPairs s) 1 j = (s.get? (j - 1)).map (fun x => x.v) := by
  have hpget : (toPairs s).get? j = some (rj.g, rj.v) := by
    rw [toPairs, List.get?_map, hj]
    rfl
  simp only [kshiftAt, hpget, Option.some_bind]
  rw [if_neg (by omega : ¬ (1 = 0))]
  have htp : (toPairs s).take j = toPairs (s.take j) := by
    simp [toPairs, List.map_take]
  have hpfil : ((toPairs s).take j).filter (fun x => x.1 == (rj.g, rj.v).1)
      = ((s.take j).filter (fun x => x.g == rj.g)).map (fun r => (r.g, r.v)) := by
    rw [htp]
    simp only [toPairs]
    rw [List.filter_map]
    rfl
  rw [hpfil, hfil]
  have hlen : (((s.take j).drop b).map (fun r => (r.g, r.v))).length = j - b := by
    rw [List.length_map, List.length_drop, List.length_take]
    omega
  rw [hlen, if_pos (by omega : 1 ≤ j - b), List.get?_map, List.get?_drop]
  have hidx : b + (j - b - 1) = j - 1 := by omega
  rw [hidx, List.get?_take (by omega : j - 1 < j), Option.map_map]
  rfl

/-- At the first row of a group block the grouped one-step shift is
missing. -/
theorem kshift1_none (s : List SRow) (b : Nat) (rb : SRow) (hb : s.get? b = some rb)
    (hfil : (s.take b).filter (fun x => x.g == rb.g) = []) :
    kshiftAt (toPairs s) 1 b = none := by
  have hpget : (toPairs s).get? b = some (rb.g, rb.v) := by
    rw [toPairs, List.get?_map, hb]
    rfl
  simp only [kshiftAt, hpget, Option.some_bind]
  rw [if_neg (by omega : ¬ (1 = 0))]
  have htp : (toPairs s).take b = toPairs (s.take b) := by
    simp [toPairs, List.map_take]
  have hpfil : ((toPairs s).take b).filter (fun x => x.1 == (rb.g, rb.v).1)
      = ((s.take b).filter (fun x => x.g == rb.g)).map (fun r => (r.g, r.v)) := by
    rw [htp]
    simp only [toPairs]
    rw [List.filter_map]
    rfl
  rw [hpfil, hfil]
  simp

/-- Characterization of one rolling cell on a sorted frame: the mean of the
`w` most recent same-group values strictly before row `i`, and missing when
the group has fewer than `w` rows before `i`. -/
theorem roll_char (s : List SRow) (hs : List.Sorted keyLE s) (w i : Nat) (hw : 1 ≤ w)
    (ri : SRow) (hri : s.get? i = some ri) :
    rollCell s w i =
      if w ≤ (priorSame s i).length
      then some (((priorSame s i).drop ((priorSame s i).length - w)).sum / (w : ℚ))
      else none := by
  obtain ⟨hi, _⟩ := List.get?_eq_some.mp hri
  obtain ⟨hcle, hfilj, hgrp⟩ := sorted_block s hs i ri hri
  set c := (priorSame s i).length with hc
  set b := i - c with hb
  set xs := kshiftCol (toPairs s) 1 with hxs
  have hxslen : xs.length = s.length := by
    rw [hxs, kshiftCol, List.length_map, List.length_range, toPairs, List.length_map]
  have hxget : ∀ j, j < s.length → xs.get? j = some (kshiftAt (toPairs s) 1 j) := by
    intro j hjlen
    rw [hxs, kshiftCol, List.get?_map,
      List.get?_range (by rw [toPairs, List.length_map]; exact hjlen)]
    rfl
  have hcell : ∀ j, b < j → j ≤ i →
      kshiftAt (toPairs s) 1 j = (s.get? (j - 1)).map (fun x => x.v) := by
    intro j hbj hji
    have hjs : j < s.length := by omega
    obtain ⟨rj, hrj⟩ : ∃ rj, s.get? j = some rj := ⟨s.get ⟨j, hjs⟩, List.get?_eq_get hjs⟩
    have hgj : rj.g = ri.g := by
      by_cases hji2 : j = i
      · rw [hji2] at hrj
        rw [hri] at hrj
        injection hrj with h0
        rw [h0]
      · exact hgrp j rj (by omega) (by omega) hrj
    apply kshift1_some s b j rj hrj ?_ (by omega) (by omega)
    rw [hgj]
    exact hfilj j (by omega) hji
  have hcellb : kshiftAt (toPairs s) 1 b = none := by
    have hbs : b < s.length := by omega
    obtain ⟨rb, hrb⟩ : ∃ rb, s.get? b = some rb := ⟨s.get ⟨b, hbs⟩, List.get?_eq_get hbs⟩
    have hgb : rb.g = ri.g := by
      by_cases hbi : b = i
      · rw [hbi] at hrb
        rw [hri] at hrb
        injection hrb with h0
        rw [h0]
      · exact hgrp b rb (by omega) (by omega) hrb
    apply kshift1_none s b rb hrb
    rw [hgb]
    rw [hfilj b (by omega) (by omega)]
    apply List.drop_eq_nil_of_le
    rw [List.length_take]
    omega
  have hP : ∀ u, u < c → (priorSame s i).get? u = (s.get? (b + u)).map (fun x => x.v) := by
    intro u hu
    have hcp2 : priorSame s i = ((s.take i).filter (fun x => x.g == ri.g)).map (fun x => x.v) := by
      unfold priorSame
      rw [hri]
    conv_lhs => rw [hcp2]
    rw [List.get?_map, hfilj i (by omega) (Nat.le_refl i), List.get?_drop,
      List.get?_take (by omega : b + u < i)]
  show windowAt xs w i = _
  by_cases hcase : w ≤ c
  · rw [if_pos hcase]
    have hguard : w ≤ i + 1 := by omega
    have hwin : (xs.take (i + 1)).drop (i + 1 - w)
        = ((priorSame s i).drop (c - w)).map some := by
      apply List.ext_get?
      intro t
      by_cases ht : t < w
      · rw [List.get?_drop, List.get?_take (by omega : i + 1 - w + t < i + 1)]
        rw [hxget _ (by omega : i + 1 - w + t < s.length)]
        rw [hcell _ (by omega) (by omega)]
        rw [List.get?_map, List.get?_drop, hP (c - w + t) (by omega)]
        have hidx : b + (c - w + t) = i + 1 - w + t - 1 := by omega
        rw [hidx, List.get?_eq_get (by omega : i + 1 - w + t - 1 < s.length)]
        simp
      · have h1 : ((xs.take (i + 1)).drop (i + 1 - w)).get? t = none := by
          apply List.get?_eq_none.mpr
          rw [List.length_drop, List.length_take]
          omega
        have h2 : (((priorSame s i).drop (c - w)).map some).get? t = none := by
          apply List.get?_eq_none.mpr
          rw [List.length_map, List.length_drop]
          omega
        rw [h1, h2]
    unfold windowAt
    rw [if_pos hguard, hwin, seqOpt_map_some]
    simp
  · rw [if_neg hcase]
    by_cases hguard : w ≤ i + 1
    · have hmemnone : (none : Option ℚ) ∈ (xs.take (i + 1)).drop (i + 1 - w) := by
        apply List.mem_iff_get?.mpr
        refine ⟨b - (i + 1 - w), ?_⟩
        rw [List.get?_drop]
        have hidx : i + 1 - w + (b - (i + 1 - w)) = b := by omega
        rw [hidx, List.get?_take (by omega : b < i + 1), hxget b (by omega), hcellb]
      unfold windowAt
      rw [if_pos hguard, seqOpt_eq_none_of_mem _ hmemnone]
      rfl
    · unfold windowAt
      rw [if_neg hguard]

theorem priorSame_eq_filter (s : List SRow) (i : Nat) (r : SRow) (h : s.get? i = some r) :
    priorSame s i = ((s.take i).filter (fun x => x.g == r.g)).map (fun x => x.v) := by
  unfold priorSame
  rw [h]

theorem setVal_eq_of_get? (s : List SRow) (j : Nat) (x : ℚ) (r : SRow)
    (h : s.get? j = some r) : setVal s j x = s.set j ⟨r.g, r.date, x⟩ := by
  unfold setVal
  rw [h]

theorem setVal_none (s : List SRow) (j : Nat) (x : ℚ) (h : s.get? j = none) :
    setVal s j x = s := by
  unfold setVal
  rw [h]

/-- Replacing a value does not change the keys, so sortedness is kept. -/
theorem setVal_sorted (s : List SRow) (j : Nat) (x : ℚ) (hs : List.Sorted keyLE s) :
    List.Sorted keyLE (setVal s j x) := by
  cases hj : s.get? j with
  | none => rw [setVal_none s j x hj]; exact hs
  | some r =>
    rw [setVal_eq_of_get? s j x r hj]
    obtain ⟨hjl, hjg⟩ := List.get?_eq_some.mp hj
    have hdecomp : s.set j ⟨r.g, r.date, x⟩
        = s.take j ++ (⟨r.g, r.date, x⟩ : SRow) :: s.drop (j + 1) := by
      rw [List.set_eq_take_append_cons_drop, if_pos hjl]
    have hsdecomp : s = s.take j ++ r :: s.drop (j + 1) := by
      conv_lhs => rw [← List.take_append_drop j s]
      congr 1
      rw [List.drop_eq_get_cons hjl]
      rw [hjg]
    rw [hdecomp]
    rw [hsdecomp] at hs
    unfold List.Sorted at *
    rw [List.pairwise_append] at hs ⊢
    obtain ⟨h1, h2, h3⟩ := hs
    rw [List.pairwise_cons] at h2 ⊢
    refine ⟨h1, ⟨?_, h2.2⟩, ?_⟩
    · intro y hy
      exact h2.1 y hy
    · intro a ha b hb
      rcases List.mem_cons.mp hb with hb1 | hb2
      · rw [hb1]
        exact h3 a ha r (List.mem_cons_self r _)
      · exact h3 a ha b (List.mem_cons_of_mem r hb2)

/-- Mutating the row itself or a row of another group leaves the list of
prior same-group values unchanged. -/
theorem priorSame_setVal (s : List SRow) (i j : Nat) (x : ℚ) (ri : SRow)
    (hri : s.get? i = some ri)
    (hcond : j = i ∨ ∀ rj, s.get? j = some rj → rj.g ≠ ri.g) :
    priorSame (setVal s j x) i = priorSame s i := by
  cases hj : s.get? j with
  | none => rw [setVal_none s j x hj]
  | some rj =>
    rw [setVal_eq_of_get? s j x rj hj]
    obtain ⟨hjl, hjget⟩ := List.get?_eq_some.mp hj
    have htake_eq : ∀ n, n ≤ j → (s.set j ⟨rj.g, rj.date, x⟩).take n = s.take n := by
      intro n hn
      apply List.ext_get?
      intro t
      by_cases ht : t < n
      · rw [List.get?_take ht, List.get?_take ht, List.get?_set_ne _ _ (by omega : j ≠ t)]
      · have e1 : ((s.set j ⟨rj.g, rj.date, x⟩).take n).get? t = none := by
          apply List.get?_eq_none.mpr
          rw [List.length_take, List.length_set]
          omega
        have e2 : (s.take n).get? t = none := by
          apply List.get?_eq_none.mpr
          rw [List.length_take]
          omega
        rw [e1, e2]
    by_cases hij : i ≤ j
    · unfold priorSame
      by_cases hji : j = i
      · subst hji
        have hract : rj = ri := by
          rw [hri] at hj
          injection hj with h0
          exact h0.symm
        have hget2 : (s.set j ⟨rj.g, rj.date, x⟩).get? j = some ⟨rj.g, rj.date, x⟩ := by
          rw [List.get?_set_eq_of_lt]
          omega
        rw [hget2, hri, htake_eq j (Nat.le_refl j), hract]
      · have hget2 : (s.set j ⟨rj.g, rj.date, x⟩).get? i = s.get? i :=
          List.get?_set_ne _ _ (by omega)
        rw [hget2, hri, htake_eq i hij]
    · -- j < i : the mutated row is in the window but belongs to another group
      have hne : rj.g ≠ ri.g := by
        cases hcond with
        | inl h => exact absurd h (by omega)
        | inr h => exact h rj hj
      have hget2 : (s.set j ⟨rj.g, rj.date, x⟩).get? i = s.get? i :=
        List.get?_set_ne _ _ (by omega)
      have hget3 : (s.set j ⟨rj.g, rj.date, x⟩).get? i = some ri := by rw [hget2, hri]
      rw [priorSame_eq_filter _ i ri hget3, priorSame_eq_filter _ i ri hri]
      congr 1
      have hset_decomp : s.set j ⟨rj.g, rj.date, x⟩
          = s.take j ++ (⟨rj.g, rj.date, x⟩ : SRow) :: s.drop (j + 1) := by
        rw [List.set_eq_take_append_cons_drop, if_pos hjl]
      have hs_decomp : s = s.take j ++ rj :: s.drop (j + 1) := by
        conv_lhs => rw [← List.take_append_drop j s]
        congr 1
        rw [List.drop_eq_get_cons hjl]
        rw [hjget]
      have hTlen : (s.take j).length = j := by
        rw [List.length_take]
        omega
      have hd1 : (s.set j ⟨rj.g, rj.date, x⟩).take i
          = s.take j ++ (⟨rj.g, rj.date, x⟩ : SRow) :: (s.drop (j + 1)).take (i - j - 1) := by
        rw [hset_decomp, List.take_append_eq_append_take, hTlen]
        congr 1
        · rw [List.take_take]
          congr 1
          omega
        · conv_lhs => rw [(by omega : i - j = i - j - 1 + 1)]
          rfl
      have hd2 : s.take i
          = s.take j ++ rj :: (s.drop (j + 1)).take (i - j - 1) := by
        conv_lhs => rw [hs_decomp]
        rw [List.take_append_eq_append_take, hTlen]
        congr 1
        · rw [List.take_take]
          congr 1
          omega
        · conv_lhs => rw [(by omega : i - j = i - j - 1 + 1)]
          rfl
      rw [hd1, hd2, List.filter_append, List.filter_append, List.filter_cons, List.filter_cons]
      have hb2 : (rj.g == ri.g) = false := by
        simp [hne]
      simp [hb2]

/-- A small concrete panel: one series with three dates, a second series
with one date. -/
def panelA : List SRow := [⟨1, 0, 2⟩, ⟨1, 1, 4⟩, ⟨1, 2, 6⟩, ⟨2, 0, 100⟩]

/-- C1: the rolling feature of `_add_lag_rolling_features` at a row of the
sorted frame is the mean of the `w` most recent same-group values strictly
before that row (missing when fewer than `w` prior observations exist in
the group), and it is unchanged under mutation of the row's own value or of
any value belonging to a different group — no same-day and no cross-series
leakage. -/
theorem c1_rolling_no_leakage (rows : List SRow) (w i : Nat) (hw : 1 ≤ w)
    (ri : SRow) (hri : (sortRows rows).get? i = some ri) :
    ((rollFeatureCol rows w).get? i
        = some (if w ≤ (priorSame (sortRows rows) i).length
            then some (((priorSame (sortRows rows) i).drop
                ((priorSame (sortRows rows) i).length - w)).sum / (w : ℚ))
            else none))
    ∧ (∀ j x rj, (sortRows rows).get? j = some rj → (j = i ∨ rj.g ≠ ri.g) →
        rollCell (setVal (sortRows rows) j x) w i = rollCell (sortRows rows) w i) := by
  have hs := sortRows_sorted rows
  obtain ⟨hi, _⟩ := List.get?_eq_some.mp hri
  constructor
  · rw [rollFeatureCol, List.get?_map, List.get?_range hi, Option.map_some']
    rw [roll_char (sortRows rows) hs w i hw ri hri]
  · intro j x rj hrj hcond
    have hs2 := setVal_sorted (sortRows rows) j x hs
    have hcond2 : j = i ∨ ∀ rj2, (sortRows rows).get? j = some rj2 → rj2.g ≠ ri.g := by
      cases hcond with
      | inl h => exact Or.inl h
      | inr h =>
        refine Or.inr (fun rj2 hrj2 => ?_)
        rw [hrj] at hrj2
        injection hrj2 with h0
        rw [← h0]
        exact h
    have hprior := priorSame_setVal (sortRows rows) i j x ri hri hcond2
    by_cases hji : j = i
    · subst hji
      have hget2 : (setVal (sortRows rows) j x).get? j = some ⟨rj.g, rj.date, x⟩ := by
        rw [setVal_eq_of_get? _ _ _ rj hrj]
        obtain ⟨hjl, _⟩ := List.get?_eq_some.mp hrj
        rw [List.get?_set_eq_of_lt]
        omega
      rw [roll_char _ hs2 w j hw ⟨rj.g, rj.date, x⟩ hget2,
        roll_char _ hs w j hw ri hri, hprior]
    · have hget2 : (setVal (sortRows rows) j x).get? i = some ri := by
        rw [setVal_eq_of_get? _ _ _ rj hrj, List.get?_set_ne _ _ hji, hri]
      rw [roll_char _ hs2 w i hw ri hget2, roll_char _ hs w i hw ri hri, hprior]

theorem c1_rolling_no_leakage_witness :
    ((rollFeatureCol panelA 2).get? 2
        = some (if 2 ≤ (priorSame (sortRows panelA) 2).length
            then some (((priorSame (sortRows panelA) 2).drop
                ((priorSame (sortRows panelA) 2).length - 2)).sum / ((2 : Nat) : ℚ))
            else none))
    ∧ (rollFeatureCol panelA 2).get? 1 = some none :=
  ⟨(c1_rolling_no_leakage panelA 2 2 (by decide) ⟨1, 2, 6⟩ (by decide)).1, by decide⟩

/-- C4: lag features are computed on the frame sorted ascending by
`(group, date)`; within every group the lag-`k` column is the group's own
date-ordered series shifted by exactly `k` positions (missing for the first
`k` rows), never crossing group boundaries; the group's dates appear in
ascending order. -/
theorem c4_lag_feature (rows : List SRow) (k : Nat) (hk : 1 ≤ k) (g : Nat) :
    List.Sorted keyLE (sortRows rows)
    ∧ List.Sorted (fun a b => a ≤ b)
        (((sortRows rows).filter (fun r => r.g == g)).map (fun r => r.date))
    ∧ subcol g (toPairs (sortRows rows)) (lagFeatureCol rows k)
        = List.replicate (min k (subvals g (toPairs (sortRows rows))).length) none
          ++ ((subvals g (toPairs (sortRows rows))).take
              ((subvals g (toPairs (sortRows rows))).length - k)).map some := by
  have hs := sortRows_sorted rows
  refine ⟨hs, ?_, ?_⟩
  · unfold List.Sorted at *
    rw [List.pairwise_map]
    have hsub : ((sortRows rows).filter (fun r => r.g == g)).Pairwise keyLE :=
      hs.sublist (List.filter_sublist _)
    apply List.Pairwise.imp_of_mem ?_ hsub
    intro a b ha hb hab
    have hag : a.g = g := by
      have := (List.mem_filter.mp ha).2
      exact beq_iff_eq.mp this
    have hbg : b.g = g := by
      have := (List.mem_filter.mp hb).2
      exact beq_iff_eq.mp this
    unfold keyLE at hab
    omega
  · exact kshift_subcol_take (toPairs (sortRows rows)) k hk g

theorem c4_lag_feature_witness :
    (subcol 1 (toPairs (sortRows panelA)) (lagFeatureCol panelA 1)
        = List.replicate (min 1 (subvals 1 (toPairs (sortRows panelA))).length) none
          ++ ((subvals 1 (toPairs (sortRows panelA))).take
              ((subvals 1 (toPairs (sortRows panelA))).length - 1)).map some)
    ∧ lagFeatureCol panelA 1 = [none, some 2, some 4, none] :=
  ⟨(c4_lag_feature panelA 1 (by decide) 1).2.2, by decide⟩

/-! ### C2 — the per-horizon extra shift in `HierarchicalLGBM.train` -/

/-- `Xh[col] = Xh.groupby("id", sort=False)[col].shift(h)`: the extra shift
applied to one lag/rolling feature column for horizon `h`; a shifted-in
missing cell and a shifted-in out-of-range position are both missing. -/
def trainShiftCol (rows : List (Nat × Option ℚ)) (h : Nat) : List (Option ℚ) :=
  (kshiftCol rows h).map Option.join

theorem subcol_map {K V α β : Type} [BEq K] (g : K) (rows : List (K × V)) (f : α → β)
    (xs : List α) : subcol g rows (xs.map f) = (subcol g rows xs).map f := by
  unfold subcol
  rw [List.zip_map_right, List.filter_map, List.map_map, List.map_map]
  rfl

/-- C2 (amended): for every horizon `h ≥ 1` and every series, the training
frame's lag/rolling column is the series' own column shifted forward by
exactly `h` extra positions — `h`, not `h - 1`. -/
theorem c2_horizon_shift (rows : List (Nat × Option ℚ)) (h : Nat) (hh : 1 ≤ h) (g : Nat) :
    subcol g rows (trainShiftCol rows h)
      = List.replicate (min h (subvals g rows).length) none
        ++ (subvals g rows).take ((subvals g rows).length - h) := by
  rw [trainShiftCol, subcol_map, kshift_subcol_take rows h hh g]
  rw [List.map_append, List.map_map, List.map_replicate]
  congr 1
  have hcomp : (Option.join ∘ (some : Option ℚ → Option (Option ℚ))) = id := by
    funext o
    cases o <;> rfl
  rw [hcomp, List.map_id]

/-- C2, refuting the claim as stated: at horizon `h = 1` the claimed extra
shift is `h - 1 = 0`, i.e. the column would be unchanged; the code shifts
it by one position. -/
theorem c2_counterexample :
    trainShiftCol [(1, some 5), (1, some 7)] 1 ≠ [some 5, some 7] := by decide

/-! ### C5 — horizon-to-date mapping and the too-few-test-dates failure -/

inductive MErr where
  | insufficientHorizons
  | insufficientData
deriving DecidableEq

/-- `sorted(test_df["date"].unique())`. -/
def distinctSorted (dates : List Nat) : List Nat :=
  List.insertionSort (fun a b => a ≤ b) dates.dedup

/-- `HierarchicalLGBM.predict`, lines 111-114: the sorted distinct test
dates; the assertion `len(test_days) >= num_models` failing is the spec's
`InsufficientHorizonsError`; on success the first `H` dates are kept. -/
def selectHorizonDates (dates : List Nat) (H : Nat) : Except MErr (List Nat) :=
  let ds := distinctSorted dates
  if ds.length < H then Except.error MErr.insufficientHorizons else Except.ok (ds.take H)

theorem distinctSorted_perm (dates : List Nat) :
    List.Perm (distinctSorted dates) dates.dedup :=
  List.perm_insertionSort _ _

theorem distinctSorted_nodup (dates : List Nat) : (distinctSorted dates).Nodup :=
  (distinctSorted_perm dates).nodup_iff.mpr (List.nodup_dedup dates)

theorem distinctSorted_sorted (dates : List Nat) :
    List.Sorted (fun a b => a < b) (distinctSorted dates) := by
  have h1 : List.Sorted (fun a b => a ≤ b) (distinctSorted dates) :=
    List.sorted_insertionSort _ _
  have h2 := distinctSorted_nodup dates
  unfold List.Sorted at *
  unfold List.Nodup at h2
  have h3 := List.Pairwise.and h1 h2
  exact h3.imp (fun hab => lt_of_le_of_ne hab.1 hab.2)

theorem distinctSorted_mem (dates : List Nat) (x : Nat) :
    x ∈ distinctSorted dates ↔ x ∈ dates := by
  rw [(distinctSorted_perm dates).mem_iff, List.mem_dedup]

theorem distinctSorted_length (dates : List Nat) :
    (distinctSorted dates).length = dates.toFinset.card := by
  rw [(distinctSorted_perm dates).length_eq, List.card_toFinset]

/-- C5: prediction fails with the insufficient-horizons error iff the test
panel has fewer than `H` distinct dates; otherwise it keeps exactly the `H`
earliest distinct test dates, horizon `h` mapping to the `h`-th earliest
(the entry at index `j` has exactly `j` distinct dates before it). -/
theorem c5_horizon_dates (dates : List Nat) (H : Nat) :
    (selectHorizonDates dates H = Except.error MErr.insufficientHorizons
      ↔ dates.toFinset.card < H)
    ∧ (∀ l, selectHorizonDates dates H = Except.ok l →
        l.length = H
        ∧ List.Sorted (fun a b => a < b) l
        ∧ (∀ d ∈ l, d ∈ dates)
        ∧ ∀ j (hj : j < l.length),
            (dates.toFinset.filter (fun x => x < l.get ⟨j, hj⟩)).card = j) := by
  have hlen := distinctSorted_length dates
  have hsorted := distinctSorted_sorted dates
  have hnodup := distinctSorted_nodup dates
  constructor
  · unfold selectHorizonDates
    by_cases hH : (distinctSorted dates).length < H
    · rw [if_pos hH]
      simp only [true_iff]
      omega
    · rw [if_neg hH]
      constructor
      · intro h
        exact Except.noConfusion h
      · intro h
        omega
  · intro l hl
    unfold selectHorizonDates at hl
    by_cases hH : (distinctSorted dates).length < H
    · rw [if_pos hH] at hl
      exact Except.noConfusion hl
    · rw [if_neg hH] at hl
      injection hl with hl2
      have hllen : l.length = H := by
        rw [← hl2, List.length_take]
        omega
      have hsub : List.Sublist l (distinctSorted dates) := by
        rw [← hl2]
        exact List.take_sublist H _
      refine ⟨hllen, ?_, ?_, ?_⟩
      · exact hsorted.sublist hsub
      · intro d hd
        exact (distinctSorted_mem dates d).mp (hsub.subset hd)
      · intro j hj
        have hjH : j < H := by omega
        have hjds : j < (distinctSorted dates).length := by omega
        have hgetj : l.get ⟨j, hj⟩ = (distinctSorted dates).get ⟨j, hjds⟩ := by
          have he : l.get? j = (distinctSorted dates).get? j := by
            rw [← hl2, List.get?_take hjH]
          rw [List.get?_eq_get hj, List.get?_eq_get hjds] at he
          injection he
        rw [hgetj]
        have hmono : StrictMono (distinctSorted dates).get := hsorted.get_strictMono
        have hsetswap : dates.toFinset = (distinctSorted dates).toFinset := by
          apply Finset.ext
          intro x
          rw [List.mem_toFinset, List.mem_toFinset, distinctSorted_mem]
        rw [hsetswap]
        have hfilter : ((distinctSorted dates).toFinset.filter
            (fun x => x < (distinctSorted dates).get ⟨j, hjds⟩))
              = ((distinctSorted dates).take j).toFinset := by
          apply Finset.ext
          intro x
          rw [Finset.mem_filter, List.mem_toFinset, List.mem_toFinset]
          constructor
          · rintro ⟨hx1, hx2⟩
            obtain ⟨t, ht⟩ := List.mem_iff_get.mp hx1
            have htj : (t : Nat) < j := by
              by_contra hcon
              have hge : (distinctSorted dates).get ⟨j, hjds⟩ ≤ (distinctSorted dates).get t := by
                rcases Nat.lt_or_ge (j : Nat) (t : Nat) with h1 | h1
                · exact le_of_lt (hmono (by simpa using h1))
                · have : (t : Nat) = j := by omega
                  apply le_of_eq
                  congr 1
                  apply Fin.ext
                  simpa using this.symm
              rw [ht] at hge
              omega
            apply List.mem_iff_get?.mpr
            refine ⟨t, ?_⟩
            rw [List.get?_take htj, ← ht, List.get?_eq_get]
          · intro hx
            obtain ⟨t, ht⟩ := List.mem_iff_get?.mp hx
            have htlen : (t : Nat) < j := by
              obtain ⟨hb, _⟩ := List.get?_eq_some.mp ht
              rw [List.length_take] at hb
              omega
            rw [List.get?_take htlen] at ht
            constructor
            · exact List.get?_mem ht
            · obtain ⟨hb, hval⟩ := List.get?_eq_some.mp ht
              rw [← hval]
              exact hmono (by simpa using htlen)
        rw [hfilter]
        have hnodupt : ((distinctSorted dates).take j).Nodup :=
          hnodup.sublist (List.take_sublist j _)
        rw [List.toFinset_card_of_nodup hnodupt, List.length_take]
        omega

theorem c5_horizon_dates_witness :
    ((selectHorizonDates [7, 3, 5, 3] 2 = Except.error MErr.insufficientHorizons
        ↔ ([7, 3, 5, 3] : List Nat).toFinset.card < 2)
      ∧ (∀ l, selectHorizonDates [7, 3, 5, 3] 2 = Except.ok l →
          l.length = 2
          ∧ List.Sorted (fun a b => a < b) l
          ∧ (∀ d ∈ l, d ∈ ([7, 3, 5, 3] : List Nat))
          ∧ ∀ j (hj : j < l.length),
              (([7, 3, 5, 3] : List Nat).toFinset.filter (fun x => x < l.get ⟨j, hj⟩)).card = j))
    ∧ selectHorizonDates [7, 3, 5, 3] 2 = Except.ok [3, 5] :=
  ⟨c5_horizon_dates [7, 3, 5, 3] 2, rfl⟩

theorem c2_horizon_shift_witness :
    (subcol 1 [(1, (some 5 : Option ℚ)), (1, some 7)] (trainShiftCol [(1, some 5), (1, some 7)] 1)
        = List.replicate (min 1 (subvals 1 [(1, (some 5 : Option ℚ)), (1, some 7)]).length) none
          ++ (subvals 1 [(1, (some 5 : Option ℚ)), (1, some 7)]).take
              ((subvals 1 [(1, (some 5 : Option ℚ)), (1, some 7)]).length - 1))
    ∧ trainShiftCol [(1, some 5), (1, some 7)] 1 = [none, some 5] :=
  ⟨c2_horizon_shift [(1, some 5), (1, some 7)] 1 (by decide) 1, by decide⟩

/-! ### C6 — empty per-horizon training set aborts the run -/

/-- One training row of `HierarchicalLGBM.train`: the series id, the base
(non-shifted) feature cells, the lag/rolling feature cells (which are
shifted per horizon) and the target. -/
structure TrainRow where
  id : Nat
  base : List (Option ℚ)
  lr : List (Option ℚ)
  sales : ℚ
deriving DecidableEq

/-- The same-id row `h` positions earlier (the source row of every shifted
lag/rolling cell of row `i` for horizon `h`), missing when fewer than `h`
same-id rows precede `i`. -/
def priorRow (rows : List TrainRow) (h i : Nat) : Option TrainRow :=
  (rows.get? i).bind (fun r =>
    if h = 0 then some r
    else
      let p := (rows.take i).filter (fun x => x.id == r.id)
      if h ≤ p.length then p.get? (p.length - h) else none)

/-- After the horizon-`h` shift, row `i` survives
`Xh.dropna(subset=feature_names)` iff all its base features are present and
a same-id row `h` positions earlier exists with all lag/rolling features
present. -/
def rowSurvives (rows : List TrainRow) (h i : Nat) : Bool :=
  match rows.get? i with
  | none => false
  | some r =>
    r.base.all (fun c => c.isSome) &&
    (match priorRow rows h i with
     | some rp => rp.lr.all (fun c => c.isSome)
     | none => false)

def survivors (rows : List TrainRow) (h : Nat) : List Nat :=
  (List.range rows.length).filter (rowSurvives rows h)

/-- Modelled external collaborator: the boosted-tree training primitive
(`lgb.train` on a `lgb.Dataset` built from the horizon's surviving rows)
fails when the dataset has zero rows; the spec's taxonomy calls this
condition `InsufficientDataError`.  The opaque trained model is represented
by the row count. -/
def lgbTrainN (n : Nat) : Except MErr Nat :=
  if n = 0 then Except.error MErr.insufficientData else Except.ok n

/-- `HierarchicalLGBM.train`: for each horizon `1..H`, shift the
lag/rolling columns, drop incomplete rows and train; no exception is
caught, so a failing horizon aborts the whole run. -/
def trainAll (rows : List TrainRow) (H : Nat) : Except MErr (List (Nat × Nat)) :=
  (List.range' 1 H).foldlM
    (fun ms h => (lgbTrainN (survivors rows h).length).map (fun m => ms ++ [(h, m)])) []

theorem trainAll_error_of_empty (rows : List TrainRow) :
    ∀ (hs : List Nat) (acc : List (Nat × Nat)),
      (∃ h ∈ hs, (survivors rows h).length = 0) →
      hs.foldlM (fun ms h => (lgbTrainN (survivors rows h).length).map (fun m => ms ++ [(h, m)]))
          acc
        = Except.error MErr.insufficientData := by
  intro hs
  induction hs with
  | nil =>
    intro acc hex
    obtain ⟨h, hmem, _⟩ := hex
    cases hmem
  | cons a t ih =>
    intro acc hex
    rw [List.foldlM_cons]
    by_cases ha : (survivors rows a).length = 0
    · rw [ha]
      rfl
    · have hn : lgbTrainN (survivors rows a).length = Except.ok (survivors rows a).length := by
        unfold lgbTrainN
        rw [if_neg ha]
      rw [hn]
      have hex2 : ∃ h ∈ t, (survivors rows h).length = 0 := by
        obtain ⟨h, hmem, hzero⟩ := hex
        cases List.mem_cons.mp hmem with
        | inl h0 =>
          rw [h0] at hzero
          exact absurd hzero ha
        | inr h0 => exact ⟨h, h0, hzero⟩
      exact ih _ hex2

/-- C6: if some horizon in `1..H` is left with zero training rows after the
shift and the drop of incomplete rows, training fails with the
insufficient-data error — the error is returned, not swallowed, so the run
aborts with no model map. -/
theorem c6_insufficient_data (rows : List TrainRow) (H : Nat)
    (hexists : ∃ h ∈ List.range' 1 H, (survivors rows h).length = 0) :
    trainAll rows H = Except.error MErr.insufficientData :=
  trainAll_error_of_empty rows (List.range' 1 H) [] hexists

theorem c6_insufficient_data_witness :
    (∃ h ∈ List.range' 1 1, (survivors [⟨1, [], [some 5], 3⟩] h).length = 0)
    ∧ trainAll [⟨1, [], [some 5], 3⟩] 1 = Except.error MErr.insufficientData :=
  ⟨by decide, c6_insufficient_data [⟨1, [], [some 5], 3⟩] 1 (by decide)⟩

/-! ### C7 — the evaluator's reindex and zero-fill -/

/-- `M5Evaluator.evaluate`, line 36:
`forecast_df.reindex(self.sales_ids).fillna(0)`, where `sales_ids` is the
id column of the original raw sales table.  A forecast is an id-keyed list
of rows of optional cells; the reindexed matrix takes, for each canonical
id in order, the forecast row (missing cells zero-filled) or an all-zero
row of the `H` horizons. -/
def reindexFill (salesIds : List Nat) (forecast : List (Nat × List (Option ℚ))) (H : Nat) :
    List (List ℚ) :=
  salesIds.map (fun sid =>
    match forecast.find? (fun p => p.1 == sid) with
    | some p => p.2.map (fun c => c.getD 0)
    | none => List.replicate H 0)

/-- C7: the scored matrix has exactly one row per canonical series id, in
canonical order; a series absent from the forecast is scored as the
all-zero row (not dropped), and a present series keeps its forecast row
with missing cells zero-filled. -/
theorem c7_reindex_zero_fill (salesIds : List Nat) (forecast : List (Nat × List (Option ℚ)))
    (H : Nat) :
    (reindexFill salesIds forecast H).length = salesIds.length
    ∧ ∀ i sid, salesIds.get? i = some sid →
        ((∀ p ∈ forecast, p.1 ≠ sid) →
          (reindexFill salesIds forecast H).get? i = some (List.replicate H 0))
        ∧ (∀ q, forecast.find? (fun p => p.1 == sid) = some q →
            (reindexFill salesIds forecast H).get? i = some (q.2.map (fun c => c.getD 0))) := by
  constructor
  · rw [reindexFill, List.length_map]
  · intro i sid hsid
    have hbase : (reindexFill salesIds forecast H).get? i
        = some (match forecast.find? (fun p => p.1 == sid) with
            | some p => p.2.map (fun c => c.getD 0)
            | none => List.replicate H 0) := by
      rw [reindexFill, List.get?_map, hsid]
      rfl
    constructor
    · intro habsent
      have hnone : forecast.find? (fun p => p.1 == sid) = none := by
        apply List.find?_eq_none.mpr
        intro p hp
        simp only [beq_iff_eq]
        exact habsent p hp
      rw [hbase, hnone]
    · intro q hq
      rw [hbase, hq]

theorem c7_reindex_zero_fill_witness :
    ((reindexFill [10, 11] [(11, [some 4, none])] 2).length = 2
      ∧ ∀ i sid, ([10, 11] : List Nat).get? i = some sid →
          ((∀ p ∈ [((11 : Nat), [some (4 : ℚ), none])], p.1 ≠ sid) →
            (reindexFill [10, 11] [(11, [some 4, none])] 2).get? i
              = some (List.replicate 2 0))
          ∧ (∀ q, [((11 : Nat), [some (4 : ℚ), none])].find? (fun p => p.1 == sid) = some q →
              (reindexFill [10, 11] [(11, [some 4, none])] 2).get? i
                = some (q.2.map (fun c => c.getD 0))))
    ∧ reindexFill [10, 11] [(11, [some 4, none])] 2 = [[0, 0], [4, 0]] :=
  ⟨c7_reindex_zero_fill [10, 11] [(11, [some 4, none])] 2, by decide⟩

/-! ### C8 — forecast non-negativity -/

/-- One test row of `HierarchicalLGBM.predict`. -/
structure PRow where
  id : Nat
  date : Nat
  feats : List (Option ℚ)
deriving DecidableEq

/-- `np.clip(pred, 0, None)`. -/
def clip0 (x : ℚ) : ℚ := max 0 x

/-- One horizon-day of `predict`: select the day's rows, fill missing
features with 0 (`fillna(0)`), apply the horizon's model, clamp at 0. -/
def predictDay (model : List ℚ → ℚ) (rows : List PRow) : List (Nat × ℚ) :=
  rows.map (fun r => (r.id, clip0 (model (r.feats.map (fun c => c.getD 0)))))

/-- Pivot lookup: the recorded forecast for `(series, horizon)`, 0 when
absent (`reindex(...).fillna(0)` after the pivot). -/
def findVal (trip : List (Nat × Nat × ℚ)) (sid h : Nat) : ℚ :=
  match trip.find? (fun t => t.1 == sid && t.2.1 == h) with
  | some t => t.2.2
  | none => 0

/-- `HierarchicalLGBM.predict`: map horizons to the first `H` sorted
distinct test dates, predict each day with the day's model, clip, pivot to
a wide series × horizon matrix reindexed to the canonical id list. -/
def predictAll (models : Nat → List ℚ → ℚ) (test : List PRow) (H : Nat)
    (salesIds : List Nat) : Except MErr (List (List ℚ)) :=
  match selectHorizonDates (test.map (fun r => r.date)) H with
  | Except.error e => Except.error e
  | Except.ok days =>
    let trip := ((List.range' 1 H).zip days).bind (fun hd =>
      (predictDay (models hd.1) (test.filter (fun r => r.date == hd.2))).map
        (fun sv => (sv.1, hd.1, sv.2)))
    Except.ok (salesIds.map (fun sid => (List.range' 1 H).map (fun h => findVal trip sid h)))

theorem findVal_nonneg (trip : List (Nat × Nat × ℚ)) (sid h : Nat)
    (htrip : ∀ t ∈ trip, 0 ≤ t.2.2) : 0 ≤ findVal trip sid h := by
  unfold findVal
  cases hfind : trip.find? (fun t => t.1 == sid && t.2.1 == h) with
  | none => exact le_refl 0
  | some t => exact htrip t (List.mem_of_find?_eq_some hfind)

/-- C8: every value of the forecast matrix returned by `predict` is
non-negative, for every test panel, every canonical id list and every model
map — including models that output negative raw scores. -/
theorem c8_forecast_nonneg (models : Nat → List ℚ → ℚ) (test : List PRow) (H : Nat)
    (salesIds : List Nat) (M : List (List ℚ))
    (hM : predictAll models test H salesIds = Except.ok M) :
    ∀ row ∈ M, ∀ x ∈ row, 0 ≤ x := by
  unfold predictAll at hM
  cases hsel : selectHorizonDates (test.map (fun r => r.date)) H with
  | error e =>
    rw [hsel] at hM
    exact Except.noConfusion hM
  | ok days =>
    rw [hsel] at hM
    injection hM with hM2
    intro row hrow x hx
    rw [← hM2] at hrow
    obtain ⟨sid, _, hsidrow⟩ := List.mem_map.mp hrow
    rw [← hsidrow] at hx
    obtain ⟨h, _, hhx⟩ := List.mem_map.mp hx
    rw [← hhx]
    apply findVal_nonneg
    intro t htmem
    obtain ⟨hd, _, ht2⟩ := List.mem_bind.mp htmem
    obtain ⟨sv, hsv, hte⟩ := List.mem_map.mp ht2
    obtain ⟨r, _, hre⟩ := List.mem_map.mp hsv
    rw [← hte, ← hre]
    exact le_max_left 0 _

instance : DecidableEq (Except MErr (List (List ℚ))) := fun a b =>
  match a, b with
  | Except.error x, Except.error y =>
    if h : x = y then isTrue (by rw [h]) else isFalse (fun hc => h (by injection hc))
  | Except.ok x, Except.ok y =>
    if h : x = y then isTrue (by rw [h]) else isFalse (fun hc => h (by injection hc))
  | Except.error e, Except.ok z => isFalse (fun hc => Except.noConfusion hc)
  | Except.ok z, Except.error e => isFalse (fun hc => Except.noConfusion hc)

theorem c8_forecast_nonneg_witness :
    (predictAll (fun _ _ => (-5 : ℚ)) [⟨1, 0, [none]⟩] 1 [1, 2]
        = Except.ok [[(0 : ℚ)], [0]])
    ∧ (∀ row ∈ [[(0 : ℚ)], [0]], ∀ x ∈ row, 0 ≤ x) :=
  ⟨by decide, c8_forecast_nonneg (fun _ _ => (-5 : ℚ)) [⟨1, 0, [none]⟩] 1 [1, 2]
    [[0], [0]] (by decide)⟩

/-! ### C9 — the temporal window of `M5DataLoader.load_data` -/

def natMax (l : List Nat) : Nat := l.foldr max 0

/-- `_filter_sales_by_date`: keep the day-columns whose date is at least
`last_date - (history_days + test_horizon)` days. -/
def filterSalesDates (cal : List Nat) (histD tH : Nat) : List Nat :=
  cal.filter (fun d => decide (natMax cal - (histD + tH) ≤ d))

/-- `_apply_temporal_filter`: recompute the max date from the panel itself,
then keep `hist_start ≤ date ≤ max_date` with
`hist_start = (max_date - test_horizon) - history_days`. -/
def applyTemporalFilter (panelDates : List Nat) (histD tH : Nat) : List Nat :=
  panelDates.filter (fun d =>
    decide (natMax panelDates - tH - histD ≤ d) && decide (d ≤ natMax panelDates))

/-- The distinct dates retained by `load_data`: the sales-table filter
followed by the final temporal filter. -/
def loadDates (cal : List Nat) (histD tH : Nat) : List Nat :=
  applyTemporalFilter (filterSalesDates cal histD tH) histD tH

set_option maxRecDepth 8000 in
/-- C9, refuting the count as claimed: on a contiguous 41-day calendar with
`history_days = 5` and `test_horizon = 3`, the retained panel spans 9
distinct days, not `5 + 3 = 8` — both window bounds are inclusive. -/
theorem c9_counterexample :
    (loadDates (List.range 41) 5 3).dedup.length ≠ 5 + 3 := by decide

theorem natMax_le (l : List Nat) (c : Nat) (h : ∀ x ∈ l, x ≤ c) : natMax l ≤ c := by
  induction l with
  | nil => exact Nat.zero_le c
  | cons a t ih =>
    have ha : a ≤ c := h a (List.mem_cons_self a t)
    have ht : natMax t ≤ c := ih (fun x hx => h x (List.mem_cons_of_mem a hx))
    unfold natMax at *
    rw [List.foldr_cons]
    omega

theorem natMax_eq (l : List Nat) (m : Nat) (hm : m ∈ l) (hall : ∀ x ∈ l, x ≤ m) :
    natMax l = m := by
  induction l with
  | nil => cases hm
  | cons a t ih =>
    unfold natMax at *
    rw [List.foldr_cons]
    cases List.mem_cons.mp hm with
    | inl h0 =>
      have ht : t.foldr max 0 ≤ m := natMax_le t m (fun x hx => hall x (List.mem_cons_of_mem a hx))
      subst h0
      exact Nat.max_eq_left ht
    | inr h0 =>
      have he : t.foldr max 0 = m := ih h0 (fun x hx => hall x (List.mem_cons_of_mem a hx))
      have ha : a ≤ m := hall a (List.mem_cons_self a t)
      rw [he]
      exact Nat.max_eq_right ha

theorem filter_range_ge (m c : Nat) :
    (List.range m).filter (fun j => decide (c ≤ j))
      = (List.range (m - c)).map (fun j => c + j) := by
  induction m with
  | zero => simp
  | succ m ih =>
    rw [List.range_succ, List.filter_append, ih]
    by_cases hc : c ≤ m
    · rw [List.filter_cons, List.filter_nil]
      rw [if_pos (by simpa using hc)]
      have hm : m + 1 - c = (m - c) + 1 := by omega
      rw [hm, List.range_succ, List.map_append]
      congr 2
      simp only [List.map_cons, List.map_nil]
      congr 1
      omega
    · rw [List.filter_cons, List.filter_nil]
      rw [if_neg (by simpa using hc)]
      have hm : m + 1 - c = m - c := by omega
      rw [hm, List.append_nil]

/-- C9 (amended): on a contiguous calendar `a..a+n` with
`history_days + test_horizon ≤ n`, `load_data` retains exactly the
inclusive window of the last `history_days + test_horizon + 1` days, ending
at the panel's own maximum date — one more day than the claimed
`history_days + test_horizon`, and the final filter is recomputed from the
filtered panel's own maximum. -/
theorem c9_window (a n histD tH : Nat) (hn : histD + tH ≤ n) :
    loadDates ((List.range (n + 1)).map (fun j => a + j)) histD tH
      = (List.range (histD + tH + 1)).map (fun j => a + (n - (histD + tH)) + j)
    ∧ (loadDates ((List.range (n + 1)).map (fun j => a + j)) histD tH).dedup.length
        = histD + tH + 1
    ∧ natMax (loadDates ((List.range (n + 1)).map (fun j => a + j)) histD tH) = a + n := by
  have hcalmax : natMax ((List.range (n + 1)).map (fun j => a + j)) = a + n := by
    apply natMax_eq
    · apply List.mem_map.mpr
      refine ⟨n, ?_, rfl⟩
      apply List.mem_range.mpr
      omega
    · intro x hx
      obtain ⟨j, hj, hje⟩ := List.mem_map.mp hx
      have := List.mem_range.mp hj
      omega
  have hstep1 : filterSalesDates ((List.range (n + 1)).map (fun j => a + j)) histD tH
      = (List.range (histD + tH + 1)).map (fun j => a + (n - (histD + tH)) + j) := by
    unfold filterSalesDates
    simp only [hcalmax, List.filter_map]
    have hpred : ∀ j ∈ List.range (n + 1),
        ((fun d => decide (a + n - (histD + tH) ≤ d)) ∘ (fun j => a + j)) j
          = (fun j => decide (n - (histD + tH) ≤ j)) j := by
      intro j _
      simp only [Function.comp_apply]
      apply decide_eq_decide.mpr
      constructor
      · intro h0
        omega
      · intro h0
        omega
    rw [List.filter_congr hpred, filter_range_ge]
    have hm : n + 1 - (n - (histD + tH)) = histD + tH + 1 := by omega
    rw [hm, List.map_map]
    apply List.map_congr_left
    intro j _
    simp only [Function.comp_apply]
    omega
  have hmem_top : a + n ∈ (List.range (histD + tH + 1)).map
      (fun j => a + (n - (histD + tH)) + j) := by
    apply List.mem_map.mpr
    refine ⟨histD + tH, ?_, by omega⟩
    apply List.mem_range.mpr
    omega
  have hbound : ∀ x ∈ (List.range (histD + tH + 1)).map
      (fun j => a + (n - (histD + tH)) + j), x ≤ a + n := by
    intro x hx
    obtain ⟨j, hj, hje⟩ := List.mem_map.mp hx
    have := List.mem_range.mp hj
    omega
  have hmax1 : natMax ((List.range (histD + tH + 1)).map
      (fun j => a + (n - (histD + tH)) + j)) = a + n :=
    natMax_eq _ _ hmem_top hbound
  have hstep2 : loadDates ((List.range (n + 1)).map (fun j => a + j)) histD tH
      = (List.range (histD + tH + 1)).map (fun j => a + (n - (histD + tH)) + j) := by
    unfold loadDates applyTemporalFilter
    simp only [hstep1]
    apply List.filter_eq_self.mpr
    intro x hx
    obtain ⟨j, hj, hje⟩ := List.mem_map.mp hx
    have hjr := List.mem_range.mp hj
    have hx2 : a + (n - (histD + tH)) + j = x := hje
    simp only [Bool.and_eq_true, decide_eq_true_eq]
    have hm := hmax1
    constructor
    · omega
    · omega
  have hnodup : ((List.range (histD + tH + 1)).map
      (fun j => a + (n - (histD + tH)) + j)).Nodup := by
    apply List.Nodup.map
    · intro x y hxy
      have hxy2 : a + (n - (histD + tH)) + x = a + (n - (histD + tH)) + y := hxy
      omega
    · exact List.nodup_range _
  refine ⟨hstep2, ?_, ?_⟩
  · rw [hstep2, List.dedup_eq_self.mpr hnodup, List.length_map, List.length_range]
  · rw [hstep2]
    exact hmax1

theorem c9_window_witness :
    (loadDates ((List.range (4 + 1)).map (fun j => 2 + j)) 1 2
        = (List.range (1 + 2 + 1)).map (fun j => 2 + (4 - (1 + 2)) + j)
      ∧ (loadDates ((List.range (4 + 1)).map (fun j => 2 + j)) 1 2).dedup.length = 1 + 2 + 1
      ∧ natMax (loadDates ((List.range (4 + 1)).map (fun j => 2 + j)) 1 2) = 2 + 4)
    ∧ loadDates ((List.range (4 + 1)).map (fun j => 2 + j)) 1 2 = [3, 4, 5, 6] :=
  ⟨c9_window 2 4 1 2 (by decide), by decide⟩

/-! ### C3 — `get_feature_names` versus the columns `create_all_features` adds

Column names are character lists; f-string name construction is list
concatenation and `str.startswith` is `List.isPrefixOf`. -/

abbrev Str : Type := List Char

/-- One entry of `hierarchical_levels`: the grouping columns and the name
namespace of the level. -/
structure HLevel where
  gby : List Str
  pfx : Str
deriving DecidableEq

def natStr (n : Nat) : Str := Nat.toDigits 10 n

def lagName (p : Str) (k : Nat) : Str := p ++ "_lag_".toList ++ natStr k

def rollName (p : Str) (w : Nat) : Str := p ++ "_roll_".toList ++ natStr w

def aggName (p : Str) : Str := "sales_".toList ++ p

def encName (c : Str) : Str := c ++ "_enc".toList

def idStr : Str := "id".toList

def dateStr : Str := "date".toList

def catCols : List Str :=
  ["state_id".toList, "store_id".toList, "dept_id".toList, "item_id".toList]

/-- `FeatureEngineer.get_feature_names`. -/
def getFeatureNames (lags rolls : List Nat) (levels : List HLevel) : List Str :=
  (["wday", "month", "year", "is_weekend", "snap", "sell_price",
    "state_id_enc", "store_id_enc", "dept_id_enc", "item_id_enc"].map String.toList)
    ++ levels.bind (fun L => lags.map (lagName L.pfx))
    ++ levels.bind (fun L => rolls.map (rollName L.pfx))

/-- `_encode_categorical` adds `col_enc` for each categorical column
present in the panel. -/
def encCols (panelCols : List Str) : List Str :=
  (catCols.filter (fun c => panelCols.contains c)).map encName

/-- The columns of the aggregate frame built for a non-bottom level:
grouping columns, date, the aggregated signal, then the lag and rolling
columns added on it. -/
def aggFrameCols (gby : List Str) (p : Str) (lags rolls : List Nat) : List Str :=
  gby ++ [dateStr, aggName p] ++ lags.map (lagName p) ++ rolls.map (rollName p)

/-- The columns one hierarchy level adds to the main frame: the lag/rolling
names directly for the bottom level, else the aggregate-frame columns that
pass the `startswith(prefix + "_")` filter (the merge keys are already
present). -/
def levelNewCols (lags rolls : List Nat) (L : HLevel) : List Str :=
  if L.gby == [idStr] then lags.map (lagName L.pfx) ++ rolls.map (rollName L.pfx)
  else (aggFrameCols L.gby L.pfx lags rolls).filter
    (fun c => List.isPrefixOf (L.pfx ++ ['_']) c)

/-- All columns `create_all_features` adds to the panel: the categorical
encodings, `is_weekend`, then each level's new columns. -/
def createAllNewCols (panelCols : List Str) (lags rolls : List Nat)
    (levels : List HLevel) : List Str :=
  encCols panelCols ++ ["is_weekend".toList] ++ levels.bind (levelNewCols lags rolls)

/-- The SeriesRecord panel columns as produced by `load_data`. -/
def stdPanelCols : List Str :=
  ["id", "item_id", "dept_id", "cat_id", "store_id", "state_id", "date", "sales",
   "sell_price", "wday", "month", "year", "snap"].map String.toList

/-- C3, refuting the claim as stated: `get_feature_names` also lists five
pre-existing panel columns (`wday`, `month`, `year`, `snap`, `sell_price`)
that `create_all_features` does not add, so the lists differ in length and
identity already for a one-level bottom-only configuration. -/
theorem c3_counterexample :
    ((getFeatureNames [1] [2] [⟨[idStr], "item".toList⟩]).length
        ≠ (createAllNewCols stdPanelCols [1] [2] [⟨[idStr], "item".toList⟩]).length)
    ∧ "wday".toList ∈ getFeatureNames [1] [2] [⟨[idStr], "item".toList⟩]
    ∧ "wday".toList ∉ createAllNewCols stdPanelCols [1] [2] [⟨[idStr], "item".toList⟩] := by
  decide

theorem isPrefixOf_append_left (x y z : Str) :
    List.isPrefixOf (x ++ y) (x ++ z) = List.isPrefixOf y z := by
  induction x with
  | nil => rfl
  | cons a t ih => simp [List.isPrefixOf, ih]

theorem bind_congr_mem {α β : Type} (l : List α) (f g : α → List β)
    (h : ∀ x ∈ l, f x = g x) : l.bind f = l.bind g := by
  induction l with
  | nil => rfl
  | cons a t ih =>
    have e1 : (a :: t).bind f = f a ++ t.bind f := rfl
    have e2 : (a :: t).bind g = g a ++ t.bind g := rfl
    rw [e1, e2, h a (List.mem_cons_self a t),
      ih (fun x hx => h x (List.mem_cons_of_mem a hx))]

theorem bind_append_perm {α β : Type} (l : List α) (f g : α → List β) :
    List.Perm (l.bind (fun x => f x ++ g x)) (l.bind f ++ l.bind g) := by
  induction l with
  | nil => exact List.Perm.refl _
  | cons a t ih =>
    have e1 : (a :: t).bind (fun x => f x ++ g x)
        = (f a ++ g a) ++ t.bind (fun x => f x ++ g x) := rfl
    have e2 : (a :: t).bind f = f a ++ t.bind f := rfl
    have e3 : (a :: t).bind g = g a ++ t.bind g := rfl
    rw [e1, e2, e3]
    have p1 : List.Perm ((f a ++ g a) ++ t.bind (fun x => f x ++ g x))
        ((f a ++ g a) ++ (t.bind f ++ t.bind g)) := List.Perm.append_left _ ih
    apply p1.trans
    rw [List.append_assoc, List.append_assoc]
    apply List.Perm.append_left
    have q1 : List.Perm (g a ++ (t.bind f ++ t.bind g)) ((g a ++ t.bind f) ++ t.bind g) := by
      rw [List.append_assoc]
    have q2 : List.Perm ((g a ++ t.bind f) ++ t.bind g) ((t.bind f ++ g a) ++ t.bind g) :=
      List.Perm.append_right _ List.perm_append_comm
    have q3 : List.Perm ((t.bind f ++ g a) ++ t.bind g) (t.bind f ++ (g a ++ t.bind g)) := by
      rw [List.append_assoc]
    exact (q1.trans q2).trans q3

/-- C3 (amended): `get_feature_names` is a pure function of the
configuration, and — for configurations whose prefixes do not collide with
the grouping columns, `date`, or the aggregated-signal name — it agrees up
to ordering with the five pre-existing base columns `wday`, `month`,
`year`, `snap`, `sell_price` together with the columns
`create_all_features` adds. -/
theorem c3_feature_names (panelCols : List Str) (lags rolls : List Nat)
    (levels : List HLevel)
    (hcats : ∀ c ∈ catCols, panelCols.contains c = true)
    (hfil : ∀ L ∈ levels, (L.gby == [idStr]) = false →
        ∀ c ∈ L.gby ++ [dateStr, aggName L.pfx],
          List.isPrefixOf (L.pfx ++ ['_']) c = false) :
    List.Perm (getFeatureNames lags rolls levels)
      ((["wday", "month", "year", "snap", "sell_price"].map String.toList)
        ++ createAllNewCols panelCols lags rolls levels) := by
  have henc : encCols panelCols
      = ["state_id_enc".toList, "store_id_enc".toList, "dept_id_enc".toList,
         "item_id_enc".toList] := by
    unfold encCols
    rw [List.filter_eq_self.mpr hcats]
    rfl
  have hlag_pre : ∀ (p : Str) (k : Nat), List.isPrefixOf (p ++ ['_']) (lagName p k) = true := by
    intro p k
    unfold lagName
    rw [List.append_assoc]
    have h0 : "_lag_".toList ++ natStr k = '_' :: ("lag_".toList ++ natStr k) := rfl
    rw [h0, isPrefixOf_append_left]
    simp [List.isPrefixOf]
  have hroll_pre : ∀ (p : Str) (w : Nat), List.isPrefixOf (p ++ ['_']) (rollName p w) = true := by
    intro p w
    unfold rollName
    rw [List.append_assoc]
    have h0 : "_roll_".toList ++ natStr w = '_' :: ("roll_".toList ++ natStr w) := rfl
    rw [h0, isPrefixOf_append_left]
    simp [List.isPrefixOf]
  have hlevel : ∀ L ∈ levels, levelNewCols lags rolls L
      = lags.map (lagName L.pfx) ++ rolls.map (rollName L.pfx) := by
    intro L hL
    unfold levelNewCols
    cases hid : L.gby == [idStr] with
    | true => rw [if_pos rfl]
    | false =>
      rw [if_neg (by simp)]
      unfold aggFrameCols
      rw [List.filter_append, List.filter_append, List.filter_append]
      have h1 : (L.gby).filter (fun c => List.isPrefixOf (L.pfx ++ ['_']) c) = [] := by
        apply List.filter_eq_nil.mpr
        intro c hc
        rw [hfil L hL hid c (List.mem_append_left _ hc)]
        exact Bool.false_ne_true
      have h2 : ([dateStr, aggName L.pfx]).filter
          (fun c => List.isPrefixOf (L.pfx ++ ['_']) c) = [] := by
        apply List.filter_eq_nil.mpr
        intro c hc
        rw [hfil L hL hid c (List.mem_append_right _ hc)]
        exact Bool.false_ne_true
      have h3 : (lags.map (lagName L.pfx)).filter
          (fun c => List.isPrefixOf (L.pfx ++ ['_']) c) = lags.map (lagName L.pfx) := by
        apply List.filter_eq_self.mpr
        intro c hc
        obtain ⟨k, _, hk⟩ := List.mem_map.mp hc
        rw [← hk]
        exact hlag_pre L.pfx k
      have h4 : (rolls.map (rollName L.pfx)).filter
          (fun c => List.isPrefixOf (L.pfx ++ ['_']) c) = rolls.map (rollName L.pfx) := by
        apply List.filter_eq_self.mpr
        intro c hc
        obtain ⟨w, _, hw⟩ := List.mem_map.mp hc
        rw [← hw]
        exact hroll_pre L.pfx w
      rw [h1, h2, h3, h4, List.nil_append, List.nil_append]
  have hbind : levels.bind (levelNewCols lags rolls)
      = levels.bind (fun L => lags.map (lagName L.pfx) ++ rolls.map (rollName L.pfx)) :=
    bind_congr_mem levels _ _ hlevel
  have hmix : List.Perm (levels.bind (levelNewCols lags rolls))
      (levels.bind (fun L => lags.map (lagName L.pfx))
        ++ levels.bind (fun L => rolls.map (rollName L.pfx))) := by
    rw [hbind]
    exact bind_append_perm levels _ _
  have hB10 : List.Perm
      (["wday", "month", "year", "is_weekend", "snap", "sell_price",
        "state_id_enc", "store_id_enc", "dept_id_enc", "item_id_enc"].map String.toList)
      ((["wday", "month", "year", "snap", "sell_price"].map String.toList)
        ++ (["state_id_enc".toList, "store_id_enc".toList, "dept_id_enc".toList,
             "item_id_enc".toList] ++ ["is_weekend".toList])) := by decide
  unfold getFeatureNames createAllNewCols
  rw [henc, List.append_assoc]
  refine (List.Perm.append_left _ hmix.symm).trans ?_
  refine (hB10.append_right _).trans ?_
  rw [List.append_assoc]

theorem c3_feature_names_witness :
    List.Perm
      (getFeatureNames [1, 7] [7] [⟨[idStr], "it".toList⟩, ⟨["store_id".toList], "st".toList⟩])
      ((["wday", "month", "year", "snap", "sell_price"].map String.toList)
        ++ createAllNewCols stdPanelCols [1, 7] [7]
            [⟨[idStr], "it".toList⟩, ⟨["store_id".toList], "st".toList⟩])
    ∧ (getFeatureNames [1, 7] [7]
        [⟨[idStr], "it".toList⟩, ⟨["store_id".toList], "st".toList⟩]).length
      = 5 + (createAllNewCols stdPanelCols [1, 7] [7]
          [⟨[idStr], "it".toList⟩, ⟨["store_id".toList], "st".toList⟩]).length :=
  ⟨c3_feature_names stdPanelCols [1, 7] [7]
      [⟨[idStr], "it".toList⟩, ⟨["store_id".toList], "st".toList⟩]
      (by decide) (by decide),
    by decide⟩

/-! ### C10 — row/column effects of `create_all_features` and caller mutation

A DataFrame is a column-name list plus positional rows of optional
rational cells.  `df[c] = vals` overwrites the column in place when `c`
exists and appends it otherwise; this in-place assignment on the frame the
caller passed in is what `_encode_categorical` and `_create_date_features`
perform, while `sort_values` and `merge` build fresh frames. -/

structure Frame where
  cols : List Str
  rows : List (List (Option ℚ))
deriving DecidableEq

def WF (f : Frame) : Prop := ∀ r ∈ f.rows, r.length = f.cols.length

def getCellRow (cols : List Str) (c : Str) (r : List (Option ℚ)) : Option ℚ :=
  match cols.findIdx? (fun x => x == c) with
  | some j => (r.get? j).getD none
  | none => none

def getCol (f : Frame) (c : Str) : List (Option ℚ) := f.rows.map (getCellRow f.cols c)

def setCol (f : Frame) (c : Str) (vals : List (Option ℚ)) : Frame :=
  match f.cols.findIdx? (fun x => x == c) with
  | some j => ⟨f.cols, (f.rows.zip vals).map (fun rv => rv.1.set j rv.2)⟩
  | none => ⟨f.cols ++ [c], (f.rows.zip vals).map (fun rv => rv.1 ++ [rv.2])⟩

/-- `pd.factorize`: integer codes in order of first appearance. -/
def factorize (vals : List (Option ℚ)) : List (Option ℚ) :=
  vals.map (fun v => some (((vals.dedup.findIdx? (fun x => x == v)).getD 0 : Nat) : ℚ))

def wdayStr : Str := "wday".toList

def salesStr : Str := "sales".toList

def iwStr : Str := "is_weekend".toList

/-- `_encode_categorical`: for each categorical column present, assign the
`_enc` column in place. -/
def encodeCategoricalFrame (f : Frame) : Frame :=
  catCols.foldl
    (fun fr c => if fr.cols.contains c then setCol fr (encName c) (factorize (getCol fr c)) else fr)
    f

/-- `_create_date_features`: `is_weekend = wday.isin([1, 7]).astype(int)`,
assigned in place. -/
def dateFeaturesFrame (f : Frame) : Frame :=
  setCol f iwStr
    ((getCol f wdayStr).map (fun v => some (if v = some 1 ∨ v = some 7 then 1 else 0)))

def keyOfRow (cols keyCols : List Str) (r : List (Option ℚ)) : List (Option ℚ) :=
  keyCols.map (fun c => getCellRow cols c r)

def leOQb : Option ℚ → Option ℚ → Bool
  | none, none => true
  | none, some _ => false
  | some _, none => true
  | some a, some b => decide (a ≤ b)

def lexLeB : List (Option ℚ) → List (Option ℚ) → Bool
  | [], _ => true
  | _ :: _, [] => false
  | a :: as, b :: bs => if a == b then lexLeB as bs else leOQb a b

/-- `df.sort_values(keyCols)`: a fresh frame with the rows reordered by the
key tuple. -/
def sortValuesFrame (f : Frame) (keyCols : List Str) : Frame :=
  ⟨f.cols,
   List.insertionSort
     (fun r1 r2 => lexLeB (keyOfRow f.cols keyCols r1) (keyOfRow f.cols keyCols r2) = true)
     f.rows⟩

/-- `df.groupby(gcols + ["date"], as_index=False)["sales"].mean()`: one row
per distinct key with the mean of the group's sales. -/
def aggregatedSalesFrame (f : Frame) (gcols : List Str) (p : Str) : Frame :=
  let keyCols := gcols ++ [dateStr]
  let keys := (f.rows.map (keyOfRow f.cols keyCols)).dedup
  ⟨gcols ++ [dateStr, aggName p],
   keys.map (fun k =>
     let grp := f.rows.filter (fun r => keyOfRow f.cols keyCols r == k)
     k ++ [some ((grp.map (fun r => (getCellRow f.cols salesStr r).getD 0)).sum
       / ((grp.length : Nat) : ℚ))])⟩

/-- `_add_lag_rolling_features` on a frame: sort by `(gcols, date)`, then
assign each lag column (`grp.shift(lag)`) and each rolling column
(`grp.shift(1).rolling(w).mean()`). -/
def addLagRollFrame (f : Frame) (gcols : List Str) (vcol : Str) (p : Str)
    (lags rolls : List Nat) : Frame :=
  let s := sortValuesFrame f (gcols ++ [dateStr])
  let keyed : List (List (Option ℚ) × Option ℚ) :=
    s.rows.map (fun r => (keyOfRow s.cols gcols r, getCellRow s.cols vcol r))
  let f1 := lags.foldl
    (fun fr k => setCol fr (lagName p k) ((kshiftCol keyed k).map Option.join)) s
  rolls.foldl
    (fun fr w => setCol fr (rollName p w)
      ((List.range keyed.length).map (fun i => windowAt ((kshiftCol keyed 1).map Option.join) w i)))
    f1

/-- `agg_df[keep_cols]`. -/
def selectColsFrame (f : Frame) (cs : List Str) : Frame :=
  ⟨cs, f.rows.map (fun r => cs.map (fun c => getCellRow f.cols c r))⟩

/-- `df.merge(g, on=onCols, how="left")` with right keys unique (the right
frame is a groupby result): each left row keeps its cells and gains the
matching right row's non-key cells, missing when unmatched. -/
def mergeLeftFrame (f g : Frame) (onCols : List Str) : Frame :=
  let newCols := g.cols.filter (fun c => !(onCols.contains c))
  ⟨f.cols ++ newCols,
   f.rows.map (fun r =>
     match g.rows.find? (fun rg => keyOfRow g.cols onCols rg == keyOfRow f.cols onCols r) with
     | some rg => r ++ newCols.map (fun c => getCellRow g.cols c rg)
     | none => r ++ newCols.map (fun _ => (none : Option ℚ)))⟩

/-- The lag/rolling column names of one level. -/
def lrNames (lags rolls : List Nat) (L : HLevel) : List Str :=
  lags.map (lagName L.pfx) ++ rolls.map (rollName L.pfx)

/-- `FeatureEngineer.create_all_features`. -/
def createAllFeaturesFrame (lags rolls : List Nat) (levels : List HLevel) (f : Frame) : Frame :=
  let f2 := dateFeaturesFrame (encodeCategoricalFrame f)
  levels.foldl
    (fun fr L =>
      if L.gby == [idStr] then addLagRollFrame fr [idStr] salesStr L.pfx lags rolls
      else
        let agg := addLagRollFrame (aggregatedSalesFrame fr L.gby L.pfx) L.gby
          (aggName L.pfx) L.pfx lags rolls
        let keep := L.gby ++ [dateStr]
          ++ agg.cols.filter (fun c => List.isPrefixOf (L.pfx ++ ['_']) c)
        mergeLeftFrame fr (selectColsFrame agg keep) (L.gby ++ [dateStr]))
    f2

/-- The caller's frame after `create_all_features` returns: the in-place
column assignments of `_encode_categorical` and `_create_date_features`
have been applied to it (everything later operates on fresh frames built
by `sort_values` and `merge`). -/
def callerAfter (f : Frame) : Frame := dateFeaturesFrame (encodeCategoricalFrame f)

/-- C10, refuting "does not mutate the caller's input panel": after the
call the caller's frame has gained the `is_weekend` column. -/
theorem c10_counterexample :
    callerAfter ⟨[wdayStr, salesStr], [[some 1, some 3]]⟩
      ≠ ⟨[wdayStr, salesStr], [[some 1, some 3]]⟩ := by decide

theorem getCol_length (f : Frame) (c : Str) : (getCol f c).length = f.rows.length := by
  rw [getCol, List.length_map]

theorem factorize_length (vals : List (Option ℚ)) : (factorize vals).length = vals.length := by
  rw [factorize, List.length_map]

/-- Assigning a fresh column appends it: the old columns and, rowwise, the
old cells are untouched. -/
theorem setCol_op (fr : Frame) (c : Str) (vals : List (Option ℚ)) (n : Nat)
    (hwf : WF fr) (hfresh : ¬ c ∈ fr.cols) (hlen : vals.length = fr.rows.length)
    (hn : n ≤ fr.cols.length) :
    (setCol fr c vals).cols = fr.cols ++ [c]
    ∧ (setCol fr c vals).rows.map (fun r => r.take n) = fr.rows.map (fun r => r.take n)
    ∧ WF (setCol fr c vals)
    ∧ (setCol fr c vals).rows.length = fr.rows.length := by
  have hidx : fr.cols.findIdx? (fun x => x == c) = none := by
    rw [List.findIdx?_eq_none_iff]
    intro x hx
    simp only [beq_eq_false_iff_ne]
    intro he
    exact hfresh (he ▸ hx)
  have hsc : setCol fr c vals
      = ⟨fr.cols ++ [c], (fr.rows.zip vals).map (fun rv => rv.1 ++ [rv.2])⟩ := by
    unfold setCol
    rw [hidx]
  refine ⟨by rw [hsc], ?_, ?_, ?_⟩
  · rw [hsc]
    show ((fr.rows.zip vals).map (fun rv => rv.1 ++ [rv.2])).map (fun r => r.take n)
        = fr.rows.map (fun r => r.take n)
    rw [List.map_map]
    have h1 : ∀ rv ∈ fr.rows.zip vals,
        ((fun r => r.take n) ∘ (fun rv => rv.1 ++ [rv.2])) rv
          = ((fun r => r.take n) ∘ Prod.fst) rv := by
      intro rv hrv
      simp only [Function.comp_apply]
      rw [List.take_append_eq_append_take]
      have hr1 : rv.1.length = fr.cols.length := hwf rv.1 (List.of_mem_zip hrv).1
      have h0 : n - rv.1.length = 0 := by omega
      rw [h0]
      simp
    rw [List.map_congr_left h1, ← List.map_map, List.map_fst_zip _ _ (by omega)]
  · rw [hsc]
    intro r hr
    obtain ⟨rv, hrv, hre⟩ := List.mem_map.mp hr
    have hr1 : rv.1.length = fr.cols.length := hwf rv.1 (List.of_mem_zip hrv).1
    rw [← hre]
    simp [hr1]
  · rw [hsc]
    show ((fr.rows.zip vals).map _).length = fr.rows.length
    rw [List.length_map, List.length_zip]
    omega

theorem sort_op (fr : Frame) (keyCols : List Str) :
    (sortValuesFrame fr keyCols).cols = fr.cols
    ∧ List.Perm (sortValuesFrame fr keyCols).rows fr.rows
    ∧ (WF fr → WF (sortValuesFrame fr keyCols))
    ∧ (sortValuesFrame fr keyCols).rows.length = fr.rows.length := by
  refine ⟨rfl, List.perm_insertionSort _ _, ?_, (List.perm_insertionSort _ _).length_eq⟩
  intro hwf r hr
  exact hwf r ((List.perm_insertionSort _ _).mem_iff.mp hr)

/-- A left merge appends the right frame's non-key columns; the left rows
keep their cells (one output row per input row, in order). -/
theorem merge_op (fr g : Frame) (onCols : List Str) (n : Nat)
    (hwf : WF fr) (hn : n ≤ fr.cols.length) :
    (mergeLeftFrame fr g onCols).cols
      = fr.cols ++ g.cols.filter (fun c => !(onCols.contains c))
    ∧ (mergeLeftFrame fr g onCols).rows.map (fun r => r.take n)
        = fr.rows.map (fun r => r.take n)
    ∧ WF (mergeLeftFrame fr g onCols)
    ∧ (mergeLeftFrame fr g onCols).rows.length = fr.rows.length := by
  refine ⟨rfl, ?_, ?_, by simp [mergeLeftFrame]⟩
  · show (fr.rows.map (fun r =>
        match g.rows.find? (fun rg =>
            keyOfRow g.cols onCols rg == keyOfRow fr.cols onCols r) with
        | some rg => r ++ (g.cols.filter (fun c => !(onCols.contains c))).map
            (fun c => getCellRow g.cols c rg)
        | none => r ++ (g.cols.filter (fun c => !(onCols.contains c))).map
            (fun _ => (none : Option ℚ)))).map (fun r => r.take n)
      = fr.rows.map (fun r => r.take n)
    rw [List.map_map]
    apply List.map_congr_left
    intro r hr
    simp only [Function.comp_apply]
    have hrl : r.length = fr.cols.length := hwf r hr
    cases hfind : g.rows.find? (fun rg =>
        keyOfRow g.cols onCols rg == keyOfRow fr.cols onCols r) with
    | some rg =>
      rw [List.take_append_eq_append_take]
      have h0 : n - r.length = 0 := by omega
      rw [h0]
      simp
    | none =>
      rw [List.take_append_eq_append_take]
      have h0 : n - r.length = 0 := by omega
      rw [h0]
      simp
  · intro r2 hr2
    obtain ⟨r, hr, hre⟩ := List.mem_map.mp hr2
    have hrl : r.length = fr.cols.length := hwf r hr
    rw [← hre]
    cases hfind : g.rows.find? (fun rg =>
        keyOfRow g.cols onCols rg == keyOfRow fr.cols onCols r) with
    | some rg => simp [mergeLeftFrame, hrl]
    | none => simp [mergeLeftFrame, hrl]

theorem setCol_cols (fr : Frame) (c : Str) (vals : List (Option ℚ))
    (hfresh : ¬ c ∈ fr.cols) : (setCol fr c vals).cols = fr.cols ++ [c] := by
  have hidx : fr.cols.findIdx? (fun x => x == c) = none := by
    rw [List.findIdx?_eq_none_iff]
    intro x hx
    simp only [beq_eq_false_iff_ne]
    intro he
    exact hfresh (he ▸ hx)
  unfold setCol
  rw [hidx]

/-- Folding fresh, pairwise-distinct column assignments appends exactly
those column names. -/
theorem foldl_setCol_cols {α : Type} (namef : α → Str) (valf : α → List (Option ℚ)) :
    ∀ (items : List α) (fr : Frame),
    (∀ a ∈ items, ¬ namef a ∈ fr.cols) →
    (items.map namef).Nodup →
    (items.foldl (fun g a => setCol g (namef a) (valf a)) fr).cols
        = fr.cols ++ items.map namef := by
  intro items
  induction items with
  | nil => intro fr _ _; simp
  | cons it ts ih =>
    intro fr hfresh hnodup
    rw [List.foldl_cons]
    have hc1 : (setCol fr (namef it) (valf it)).cols = fr.cols ++ [namef it] :=
      setCol_cols fr (namef it) (valf it) (hfresh it (List.mem_cons_self it ts))
    have hnodup' := hnodup
    rw [List.map_cons] at hnodup'
    have hni : ¬ namef it ∈ ts.map namef := (List.nodup_cons.mp hnodup').1
    have hnd2 : (ts.map namef).Nodup := (List.nodup_cons.mp hnodup').2
    have hfresh2 : ∀ a ∈ ts, ¬ namef a ∈ (setCol fr (namef it) (valf it)).cols := by
      intro a ha
      rw [hc1]
      intro hmem
      rcases List.mem_append.mp hmem with hmem | hmem
      · exact hfresh a (List.mem_cons_of_mem it ha) hmem
      · have he : namef a = namef it := by simpa using hmem
        exact hni (he ▸ List.mem_map_of_mem _ ha)
    rw [ih (setCol fr (namef it) (valf it)) hfresh2 hnd2, hc1]
    simp

/-- Folding fresh, pairwise-distinct column assignments whose value lists
match the row count leaves the pre-existing cells of every row unchanged
and preserves well-formedness and the row count. -/
theorem foldl_setCol_op {α : Type} (namef : α → Str) (valf : α → List (Option ℚ)) :
    ∀ (items : List α) (fr : Frame) (n : Nat),
    WF fr → n ≤ fr.cols.length →
    (∀ a ∈ items, ¬ namef a ∈ fr.cols) →
    (items.map namef).Nodup →
    (∀ a ∈ items, (valf a).length = fr.rows.length) →
    ((items.foldl (fun g a => setCol g (namef a) (valf a)) fr).rows.map (fun r => r.take n)
        = fr.rows.map (fun r => r.take n))
    ∧ WF (items.foldl (fun g a => setCol g (namef a) (valf a)) fr)
    ∧ (items.foldl (fun g a => setCol g (namef a) (valf a)) fr).rows.length
        = fr.rows.length := by
  intro items
  induction items with
  | nil => intro fr n hwf _ _ _ _; exact ⟨rfl, hwf, rfl⟩
  | cons it ts ih =>
    intro fr n hwf hn hfresh hnodup hlen
    rw [List.foldl_cons]
    obtain ⟨hc1, hc2, hc3, hc4⟩ := setCol_op fr (namef it) (valf it) n hwf
      (hfresh it (List.mem_cons_self it ts)) (hlen it (List.mem_cons_self it ts)) hn
    have hnodup' := hnodup
    rw [List.map_cons] at hnodup'
    have hni : ¬ namef it ∈ ts.map namef := (List.nodup_cons.mp hnodup').1
    have hnd2 : (ts.map namef).Nodup := (List.nodup_cons.mp hnodup').2
    have hfresh2 : ∀ a ∈ ts, ¬ namef a ∈ (setCol fr (namef it) (valf it)).cols := by
      intro a ha
      rw [hc1]
      intro hmem
      rcases List.mem_append.mp hmem with hmem | hmem
      · exact hfresh a (List.mem_cons_of_mem it ha) hmem
      · have he : namef a = namef it := by simpa using hmem
        exact hni (he ▸ List.mem_map_of_mem _ ha)
    have hn2 : n ≤ (setCol fr (namef it) (valf it)).cols.length := by
      rw [hc1, List.length_append]
      omega
    have hlen2 : ∀ a ∈ ts, (valf a).length = (setCol fr (namef it) (valf it)).rows.length := by
      intro a ha
      rw [hc4]
      exact hlen a (List.mem_cons_of_mem it ha)
    obtain ⟨ih1, ih2, ih3⟩ := ih (setCol fr (namef it) (valf it)) n hc3 hn2 hfresh2 hnd2 hlen2
    exact ⟨ih1.trans hc2, ih2, ih3.trans hc4⟩

/-- `_encode_categorical`'s fold: it appends some subset of the `_enc`
names while preserving the pre-existing cells, well-formedness and the row
count. -/
theorem encode_fold_op :
    ∀ (cs : List Str) (fr : Frame) (n : Nat),
    WF fr → n ≤ fr.cols.length →
    (∀ c ∈ cs, ¬ encName c ∈ fr.cols) →
    ((cs.map encName).Nodup) →
    ∃ added : List Str,
      (cs.foldl (fun g c =>
          if g.cols.contains c then setCol g (encName c) (factorize (getCol g c)) else g) fr).cols
        = fr.cols ++ added
      ∧ (∀ nm ∈ added, nm ∈ cs.map encName)
      ∧ ((cs.foldl (fun g c =>
          if g.cols.contains c then setCol g (encName c) (factorize (getCol g c)) else g)
            fr).rows.map (fun r => r.take n)
          = fr.rows.map (fun r => r.take n))
      ∧ WF (cs.foldl (fun g c =>
          if g.cols.contains c then setCol g (encName c) (factorize (getCol g c)) else g) fr)
      ∧ (cs.foldl (fun g c =>
          if g.cols.contains c then setCol g (encName c) (factorize (getCol g c)) else g)
            fr).rows.length = fr.rows.length := by
  intro cs
  induction cs with
  | nil => intro fr n hwf _ _ _; exact ⟨[], by simp, by simp, rfl, hwf, rfl⟩
  | cons c ts ih =>
    intro fr n hwf hn hfresh hnodup
    rw [List.foldl_cons]
    have hnodup' := hnodup
    rw [List.map_cons] at hnodup'
    have hni : ¬ encName c ∈ ts.map encName := (List.nodup_cons.mp hnodup').1
    have hnd2 : (ts.map encName).Nodup := (List.nodup_cons.mp hnodup').2
    cases hcont : fr.cols.contains c with
    | false =>
      rw [if_neg (by simp [hcont])]
      obtain ⟨added, ha1, ha2, ha3, ha4, ha5⟩ := ih fr n hwf hn
        (fun c2 hc2 => hfresh c2 (List.mem_cons_of_mem c hc2)) hnd2
      refine ⟨added, ha1, ?_, ha3, ha4, ha5⟩
      intro nm hnm
      rw [List.map_cons]
      exact List.mem_cons_of_mem _ (ha2 nm hnm)
    | true =>
      rw [if_pos rfl]
      obtain ⟨hc1, hc2, hc3, hc4⟩ := setCol_op fr (encName c) (factorize (getCol fr c)) n hwf
        (hfresh c (List.mem_cons_self c ts)) (by rw [factorize_length, getCol_length]) hn
      have hfresh2 : ∀ c2 ∈ ts,
          ¬ encName c2 ∈ (setCol fr (encName c) (factorize (getCol fr c))).cols := by
        intro c2 hc2m
        rw [hc1]
        intro hmem
        rcases List.mem_append.mp hmem with hmem | hmem
        · exact hfresh c2 (List.mem_cons_of_mem c hc2m) hmem
        · have he : encName c2 = encName c := by simpa using hmem
          exact hni (he ▸ List.mem_map_of_mem _ hc2m)
      have hn2 : n ≤ (setCol fr (encName c) (factorize (getCol fr c))).cols.length := by
        rw [hc1, List.length_append]
        omega
      obtain ⟨added, ha1, ha2, ha3, ha4, ha5⟩ :=
        ih (setCol fr (encName c) (factorize (getCol fr c))) n hc3 hn2 hfresh2 hnd2
      refine ⟨encName c :: added, ?_, ?_, ha3.trans hc2, ha4, ha5.trans hc4⟩
      · rw [ha1, hc1]
        simp
      · intro nm hnm
        rw [List.map_cons]
        rcases List.mem_cons.mp hnm with he | hm
        · exact he ▸ List.mem_cons_self _ _
        · exact List.mem_cons_of_mem _ (ha2 nm hm)

/-- `_create_date_features` appends exactly `is_weekend`, preserving the
pre-existing cells, well-formedness and the row count. -/
theorem dateFeatures_op (fr : Frame) (n : Nat) (hwf : WF fr) (hn : n ≤ fr.cols.length)
    (hfresh : ¬ iwStr ∈ fr.cols) :
    (dateFeaturesFrame fr).cols = fr.cols ++ [iwStr]
    ∧ ((dateFeaturesFrame fr).rows.map (fun r => r.take n) = fr.rows.map (fun r => r.take n))
    ∧ WF (dateFeaturesFrame fr)
    ∧ (dateFeaturesFrame fr).rows.length = fr.rows.length := by
  have hlen : ((getCol fr wdayStr).map
      (fun v => some (if v = some 1 ∨ v = some 7 then (1 : ℚ) else 0))).length
      = fr.rows.length := by
    rw [List.length_map, getCol_length]
  exact setCol_op fr iwStr _ n hwf hfresh hlen hn

theorem kshiftCol_length {K V : Type} [BEq K] (rows : List (K × V)) (k : Nat) :
    (kshiftCol rows k).length = rows.length := by
  rw [kshiftCol, List.length_map, List.length_range]

/-- The keyed (group, value) pairs `_add_lag_rolling_features` shifts,
read off the sorted frame. -/
def lrKeyed (f : Frame) (gcols : List Str) (vcol : Str) : List (List (Option ℚ) × Option ℚ) :=
  (sortValuesFrame f (gcols ++ [dateStr])).rows.map
    (fun r => (keyOfRow (sortValuesFrame f (gcols ++ [dateStr])).cols gcols r,
               getCellRow (sortValuesFrame f (gcols ++ [dateStr])).cols vcol r))

theorem addLagRollFrame_eq (f : Frame) (gcols : List Str) (vcol : Str) (p : Str)
    (lags rolls : List Nat) :
    addLagRollFrame f gcols vcol p lags rolls
      = rolls.foldl (fun fr w => setCol fr (rollName p w)
          ((List.range (lrKeyed f gcols vcol).length).map
            (fun i => windowAt ((kshiftCol (lrKeyed f gcols vcol) 1).map Option.join) w i)))
        (lags.foldl (fun fr k => setCol fr (lagName p k)
          ((kshiftCol (lrKeyed f gcols vcol) k).map Option.join))
          (sortValuesFrame f (gcols ++ [dateStr]))) := rfl

/-- The two assignment folds of `_add_lag_rolling_features` append exactly
the lag then rolling column names, preserving pre-existing cells,
well-formedness and the row count. -/
theorem lagroll_folds_op (s : Frame) (keyed : List (List (Option ℚ) × Option ℚ)) (p : Str)
    (lags rolls : List Nat) (n : Nat)
    (hwf : WF s) (hn : n ≤ s.cols.length) (hkey : keyed.length = s.rows.length)
    (hfresh : ∀ nm ∈ lags.map (lagName p) ++ rolls.map (rollName p), ¬ nm ∈ s.cols)
    (hnodup : (lags.map (lagName p) ++ rolls.map (rollName p)).Nodup) :
    (rolls.foldl (fun fr w => setCol fr (rollName p w)
        ((List.range keyed.length).map (fun i => windowAt ((kshiftCol keyed 1).map Option.join) w i)))
      (lags.foldl (fun fr k => setCol fr (lagName p k) ((kshiftCol keyed k).map Option.join)) s)).cols
      = s.cols ++ (lags.map (lagName p) ++ rolls.map (rollName p))
    ∧ (rolls.foldl (fun fr w => setCol fr (rollName p w)
        ((List.range keyed.length).map (fun i => windowAt ((kshiftCol keyed 1).map Option.join) w i)))
      (lags.foldl (fun fr k => setCol fr (lagName p k) ((kshiftCol keyed k).map Option.join)) s)).rows.map
        (fun r => r.take n) = s.rows.map (fun r => r.take n)
    ∧ WF (rolls.foldl (fun fr w => setCol fr (rollName p w)
        ((List.range keyed.length).map (fun i => windowAt ((kshiftCol keyed 1).map Option.join) w i)))
      (lags.foldl (fun fr k => setCol fr (lagName p k) ((kshiftCol keyed k).map Option.join)) s))
    ∧ (rolls.foldl (fun fr w => setCol fr (rollName p w)
        ((List.range keyed.length).map (fun i => windowAt ((kshiftCol keyed 1).map Option.join) w i)))
      (lags.foldl (fun fr k => setCol fr (lagName p k) ((kshiftCol keyed k).map Option.join)) s)).rows.length
      = s.rows.length := by
  have hnd := List.nodup_append.mp hnodup
  have hlfresh : ∀ k ∈ lags, ¬ lagName p k ∈ s.cols := by
    intro k hk
    exact hfresh (lagName p k) (List.mem_append_left _ (List.mem_map_of_mem _ hk))
  have hllen : ∀ k ∈ lags, ((kshiftCol keyed k).map Option.join).length = s.rows.length := by
    intro k _
    rw [List.length_map, kshiftCol_length, hkey]
  have hlag := foldl_setCol_op (lagName p) (fun k => (kshiftCol keyed k).map Option.join)
    lags s n hwf hn hlfresh hnd.1 hllen
  have hf1c : (lags.foldl (fun fr k => setCol fr (lagName p k)
      ((kshiftCol keyed k).map Option.join)) s).cols = s.cols ++ lags.map (lagName p) :=
    foldl_setCol_cols (lagName p) (fun k => (kshiftCol keyed k).map Option.join)
      lags s hlfresh hnd.1
  have hf1v : (lags.foldl (fun fr k => setCol fr (lagName p k)
      ((kshiftCol keyed k).map Option.join)) s).rows.map (fun r => r.take n)
      = s.rows.map (fun r => r.take n) := hlag.1
  have hf1wf : WF (lags.foldl (fun fr k => setCol fr (lagName p k)
      ((kshiftCol keyed k).map Option.join)) s) := hlag.2.1
  have hf1len : (lags.foldl (fun fr k => setCol fr (lagName p k)
      ((kshiftCol keyed k).map Option.join)) s).rows.length = s.rows.length := hlag.2.2
  have hn2 : n ≤ (lags.foldl (fun fr k => setCol fr (lagName p k)
      ((kshiftCol keyed k).map Option.join)) s).cols.length := by
    rw [hf1c, List.length_append]
    omega
  have hrfresh : ∀ w ∈ rolls, ¬ rollName p w ∈ (lags.foldl (fun fr k => setCol fr (lagName p k)
      ((kshiftCol keyed k).map Option.join)) s).cols := by
    intro w hw
    rw [hf1c]
    intro hmem
    rcases List.mem_append.mp hmem with hmem | hmem
    · exact hfresh (rollName p w) (List.mem_append_right _ (List.mem_map_of_mem _ hw)) hmem
    · exact hnd.2.2 hmem (List.mem_map_of_mem _ hw)
  have hrlen : ∀ w ∈ rolls, ((List.range keyed.length).map
      (fun i => windowAt ((kshiftCol keyed 1).map Option.join) w i)).length
      = (lags.foldl (fun fr k => setCol fr (lagName p k)
        ((kshiftCol keyed k).map Option.join)) s).rows.length := by
    intro w _
    rw [List.length_map, List.length_range, hf1len, hkey]
  have hroll := foldl_setCol_op (rollName p)
    (fun w => (List.range keyed.length).map
      (fun i => windowAt ((kshiftCol keyed 1).map Option.join) w i))
    rolls (lags.foldl (fun fr k => setCol fr (lagName p k)
      ((kshiftCol keyed k).map Option.join)) s) n hf1wf hn2 hrfresh hnd.2.1 hrlen
  have hrc : (rolls.foldl (fun fr w => setCol fr (rollName p w)
      ((List.range keyed.length).map (fun i => windowAt ((kshiftCol keyed 1).map Option.join) w i)))
      (lags.foldl (fun fr k => setCol fr (lagName p k) ((kshiftCol keyed k).map Option.join)) s)).cols
      = (lags.foldl (fun fr k => setCol fr (lagName p k)
        ((kshiftCol keyed k).map Option.join)) s).cols ++ rolls.map (rollName p) :=
    foldl_setCol_cols (rollName p)
      (fun w => (List.range keyed.length).map
        (fun i => windowAt ((kshiftCol keyed 1).map Option.join) w i))
      rolls _ hrfresh hnd.2.1
  refine ⟨?_, hroll.1.trans hf1v, hroll.2.1, hroll.2.2.trans hf1len⟩
  rw [hrc, hf1c, List.append_assoc]

/-- `_add_lag_rolling_features` appends exactly the lag and rolling column
names; the rows keep their pre-existing cells (reordered by the sort) and
their count, and the frame stays well-formed. -/
theorem addLagRoll_op (f : Frame) (gcols : List Str) (vcol : Str) (p : Str)
    (lags rolls : List Nat) (n : Nat)
    (hwf : WF f) (hn : n ≤ f.cols.length)
    (hfresh : ∀ nm ∈ lags.map (lagName p) ++ rolls.map (rollName p), ¬ nm ∈ f.cols)
    (hnodup : (lags.map (lagName p) ++ rolls.map (rollName p)).Nodup) :
    (addLagRollFrame f gcols vcol p lags rolls).cols
      = f.cols ++ (lags.map (lagName p) ++ rolls.map (rollName p))
    ∧ List.Perm ((addLagRollFrame f gcols vcol p lags rolls).rows.map (fun r => r.take n))
        (f.rows.map (fun r => r.take n))
    ∧ WF (addLagRollFrame f gcols vcol p lags rolls)
    ∧ (addLagRollFrame f gcols vcol p lags rolls).rows.length = f.rows.length := by
  obtain ⟨hsc, hsperm, hswf, hslen⟩ := sort_op f (gcols ++ [dateStr])
  have hkey : (lrKeyed f gcols vcol).length
      = (sortValuesFrame f (gcols ++ [dateStr])).rows.length := by
    rw [lrKeyed, List.length_map]
  have hfresh' : ∀ nm ∈ lags.map (lagName p) ++ rolls.map (rollName p),
      ¬ nm ∈ (sortValuesFrame f (gcols ++ [dateStr])).cols := by
    intro nm hnm
    rw [hsc]
    exact hfresh nm hnm
  obtain ⟨g1, g2, g3, g4⟩ := lagroll_folds_op (sortValuesFrame f (gcols ++ [dateStr]))
    (lrKeyed f gcols vcol) p lags rolls n (hswf hwf) (by rw [hsc]; exact hn) hkey hfresh' hnodup
  rw [addLagRollFrame_eq]
  refine ⟨by rw [g1, hsc], ?_, g3, by rw [g4, hslen]⟩
  rw [g2]
  exact hsperm.map (fun r => r.take n)

theorem lagName_pre (p : Str) (k : Nat) :
    List.isPrefixOf (p ++ ['_']) (lagName p k) = true := by
  unfold lagName
  rw [List.append_assoc]
  have h0 : "_lag_".toList ++ natStr k = '_' :: ("lag_".toList ++ natStr k) := rfl
  rw [h0, isPrefixOf_append_left]
  simp [List.isPrefixOf]

theorem rollName_pre (p : Str) (w : Nat) :
    List.isPrefixOf (p ++ ['_']) (rollName p w) = true := by
  unfold rollName
  rw [List.append_assoc]
  have h0 : "_roll_".toList ++ natStr w = '_' :: ("roll_".toList ++ natStr w) := rfl
  rw [h0, isPrefixOf_append_left]
  simp [List.isPrefixOf]

theorem aggregated_wf (f : Frame) (gcols : List Str) (p : Str) :
    WF (aggregatedSalesFrame f gcols p) := by
  intro r hr
  have hr2 : r ∈ ((f.rows.map (keyOfRow f.cols (gcols ++ [dateStr]))).dedup).map
      (fun k => k ++ [some
        (((f.rows.filter (fun r0 => keyOfRow f.cols (gcols ++ [dateStr]) r0 == k)).map
            (fun r0 => (getCellRow f.cols salesStr r0).getD 0)).sum
          / (((f.rows.filter (fun r0 =>
              keyOfRow f.cols (gcols ++ [dateStr]) r0 == k)).length : Nat) : ℚ))]) := hr
  obtain ⟨k, hk, hre⟩ := List.mem_map.mp hr2
  obtain ⟨r0, hr0, hke⟩ := List.mem_map.mp (List.mem_dedup.mp hk)
  have hkl : k.length = gcols.length + 1 := by
    rw [← hke, keyOfRow, List.length_map, List.length_append]
    rfl
  have hcl : (aggregatedSalesFrame f gcols p).cols.length = gcols.length + 2 := by
    show (gcols ++ [dateStr, aggName p]).length = gcols.length + 2
    rw [List.length_append]
    rfl
  rw [← hre, List.length_append, hkl, hcl]
  simp

/-- One non-bottom hierarchy level: the aggregate frame is built, filtered
to the prefixed columns, and left-merged back, appending exactly the
level's lag/rolling names while keeping every cell of the caller-side
frame in place. -/
theorem level_merge_op (fr : Frame) (L : HLevel) (lags rolls : List Nat) (n : Nat)
    (hwf : WF fr) (hn : n ≤ fr.cols.length)
    (hfil : ∀ c ∈ L.gby ++ [dateStr, aggName L.pfx],
        List.isPrefixOf (L.pfx ++ ['_']) c = false)
    (hnodupL : (lrNames lags rolls L).Nodup) :
    (mergeLeftFrame fr (selectColsFrame
        (addLagRollFrame (aggregatedSalesFrame fr L.gby L.pfx) L.gby (aggName L.pfx)
          L.pfx lags rolls)
        (L.gby ++ [dateStr] ++
          (addLagRollFrame (aggregatedSalesFrame fr L.gby L.pfx) L.gby (aggName L.pfx)
            L.pfx lags rolls).cols.filter
            (fun c => List.isPrefixOf (L.pfx ++ ['_']) c)))
      (L.gby ++ [dateStr])).cols = fr.cols ++ lrNames lags rolls L
    ∧ (mergeLeftFrame fr (selectColsFrame
        (addLagRollFrame (aggregatedSalesFrame fr L.gby L.pfx) L.gby (aggName L.pfx)
          L.pfx lags rolls)
        (L.gby ++ [dateStr] ++
          (addLagRollFrame (aggregatedSalesFrame fr L.gby L.pfx) L.gby (aggName L.pfx)
            L.pfx lags rolls).cols.filter
            (fun c => List.isPrefixOf (L.pfx ++ ['_']) c)))
      (L.gby ++ [dateStr])).rows.map (fun r => r.take n) = fr.rows.map (fun r => r.take n)
    ∧ WF (mergeLeftFrame fr (selectColsFrame
        (addLagRollFrame (aggregatedSalesFrame fr L.gby L.pfx) L.gby (aggName L.pfx)
          L.pfx lags rolls)
        (L.gby ++ [dateStr] ++
          (addLagRollFrame (aggregatedSalesFrame fr L.gby L.pfx) L.gby (aggName L.pfx)
            L.pfx lags rolls).cols.filter
            (fun c => List.isPrefixOf (L.pfx ++ ['_']) c)))
      (L.gby ++ [dateStr]))
    ∧ (mergeLeftFrame fr (selectColsFrame
        (addLagRollFrame (aggregatedSalesFrame fr L.gby L.pfx) L.gby (aggName L.pfx)
          L.pfx lags rolls)
        (L.gby ++ [dateStr] ++
          (addLagRollFrame (aggregatedSalesFrame fr L.gby L.pfx) L.gby (aggName L.pfx)
            L.pfx lags rolls).cols.filter
            (fun c => List.isPrefixOf (L.pfx ++ ['_']) c)))
      (L.gby ++ [dateStr])).rows.length = fr.rows.length := by
  have hnodupL2 : (lags.map (lagName L.pfx) ++ rolls.map (rollName L.pfx)).Nodup := hnodupL
  have haggfresh : ∀ nm ∈ lags.map (lagName L.pfx) ++ rolls.map (rollName L.pfx),
      ¬ nm ∈ (aggregatedSalesFrame fr L.gby L.pfx).cols := by
    intro nm hnm hmem
    have hmem2 : nm ∈ L.gby ++ [dateStr, aggName L.pfx] := hmem
    have htrue : List.isPrefixOf (L.pfx ++ ['_']) nm = true := by
      rcases List.mem_append.mp hnm with h | h
      · obtain ⟨k, _, hk⟩ := List.mem_map.mp h
        rw [← hk]
        exact lagName_pre L.pfx k
      · obtain ⟨w, _, hw⟩ := List.mem_map.mp h
        rw [← hw]
        exact rollName_pre L.pfx w
    rw [hfil nm hmem2] at htrue
    exact Bool.false_ne_true htrue
  obtain ⟨haggc, hx1, hx2, hx3⟩ := addLagRoll_op (aggregatedSalesFrame fr L.gby L.pfx)
    L.gby (aggName L.pfx) L.pfx lags rolls 0 (aggregated_wf fr L.gby L.pfx)
    (Nat.zero_le _) haggfresh hnodupL2
  have haggc2 : (addLagRollFrame (aggregatedSalesFrame fr L.gby L.pfx) L.gby (aggName L.pfx)
      L.pfx lags rolls).cols
      = (L.gby ++ [dateStr, aggName L.pfx])
        ++ (lags.map (lagName L.pfx) ++ rolls.map (rollName L.pfx)) := haggc
  have hfiltered : (addLagRollFrame (aggregatedSalesFrame fr L.gby L.pfx) L.gby (aggName L.pfx)
      L.pfx lags rolls).cols.filter (fun c => List.isPrefixOf (L.pfx ++ ['_']) c)
      = lags.map (lagName L.pfx) ++ rolls.map (rollName L.pfx) := by
    have h1 : (L.gby ++ [dateStr, aggName L.pfx]).filter
        (fun c => List.isPrefixOf (L.pfx ++ ['_']) c) = [] := by
      apply List.filter_eq_nil.mpr
      intro c hc
      rw [hfil c hc]
      exact Bool.false_ne_true
    have h3 : (lags.map (lagName L.pfx)).filter
        (fun c => List.isPrefixOf (L.pfx ++ ['_']) c) = lags.map (lagName L.pfx) := by
      apply List.filter_eq_self.mpr
      intro c hc
      obtain ⟨k, _, hk⟩ := List.mem_map.mp hc
      rw [← hk]
      exact lagName_pre L.pfx k
    have h4 : (rolls.map (rollName L.pfx)).filter
        (fun c => List.isPrefixOf (L.pfx ++ ['_']) c) = rolls.map (rollName L.pfx) := by
      apply List.filter_eq_self.mpr
      intro c hc
      obtain ⟨w, _, hw⟩ := List.mem_map.mp hc
      rw [← hw]
      exact rollName_pre L.pfx w
    rw [haggc2, List.filter_append, h1, List.nil_append, List.filter_append, h3, h4]
  have hlrnotkey : ∀ nm ∈ lags.map (lagName L.pfx) ++ rolls.map (rollName L.pfx),
      ¬ nm ∈ L.gby ++ [dateStr] := by
    intro nm hnm hmem
    have htrue : List.isPrefixOf (L.pfx ++ ['_']) nm = true := by
      rcases List.mem_append.mp hnm with h | h
      · obtain ⟨k, _, hk⟩ := List.mem_map.mp h
        rw [← hk]
        exact lagName_pre L.pfx k
      · obtain ⟨w, _, hw⟩ := List.mem_map.mp h
        rw [← hw]
        exact rollName_pre L.pfx w
    have hmem2 : nm ∈ L.gby ++ [dateStr, aggName L.pfx] := by
      rcases List.mem_append.mp hmem with h | h
      · exact List.mem_append_left _ h
      · have he : nm = dateStr := by simpa using h
        exact List.mem_append_right _ (he ▸ List.mem_cons_self _ _)
    rw [hfil nm hmem2] at htrue
    exact Bool.false_ne_true htrue
  obtain ⟨hmc, hmv, hmwf, hmlen⟩ := merge_op fr (selectColsFrame
      (addLagRollFrame (aggregatedSalesFrame fr L.gby L.pfx) L.gby (aggName L.pfx)
        L.pfx lags rolls)
      (L.gby ++ [dateStr] ++
        (addLagRollFrame (aggregatedSalesFrame fr L.gby L.pfx) L.gby (aggName L.pfx)
          L.pfx lags rolls).cols.filter
          (fun c => List.isPrefixOf (L.pfx ++ ['_']) c)))
    (L.gby ++ [dateStr]) n hwf hn
  refine ⟨?_, hmv, hmwf, hmlen⟩
  rw [hmc]
  have hsel : (selectColsFrame
      (addLagRollFrame (aggregatedSalesFrame fr L.gby L.pfx) L.gby (aggName L.pfx)
        L.pfx lags rolls)
      (L.gby ++ [dateStr] ++
        (addLagRollFrame (aggregatedSalesFrame fr L.gby L.pfx) L.gby (aggName L.pfx)
          L.pfx lags rolls).cols.filter
          (fun c => List.isPrefixOf (L.pfx ++ ['_']) c))).cols
      = L.gby ++ [dateStr] ++
        (addLagRollFrame (aggregatedSalesFrame fr L.gby L.pfx) L.gby (aggName L.pfx)
          L.pfx lags rolls).cols.filter
          (fun c => List.isPrefixOf (L.pfx ++ ['_']) c) := rfl
  rw [hsel, hfiltered]
  have hA : (L.gby ++ [dateStr]).filter (fun c => !((L.gby ++ [dateStr]).contains c)) = [] := by
    apply List.filter_eq_nil.mpr
    intro c hc
    have hct : (L.gby ++ [dateStr]).contains c = true := List.elem_iff.mpr hc
    show ¬((!((L.gby ++ [dateStr]).contains c)) = true)
    rw [hct]
    decide
  have hB : (lags.map (lagName L.pfx) ++ rolls.map (rollName L.pfx)).filter
      (fun c => !((L.gby ++ [dateStr]).contains c))
      = lags.map (lagName L.pfx) ++ rolls.map (rollName L.pfx) := by
    apply List.filter_eq_self.mpr
    intro nm hnm
    have hcf : (L.gby ++ [dateStr]).contains nm = false := by
      apply Bool.eq_false_iff.mpr
      intro hct
      exact hlrnotkey nm hnm (List.elem_iff.mp hct)
    show (!((L.gby ++ [dateStr]).contains nm)) = true
    rw [hcf]
    decide
  rw [List.filter_append, hA, hB, List.nil_append]
  rfl

theorem createAllFeaturesFrame_eq (lags rolls : List Nat) (levels : List HLevel) (f : Frame) :
    createAllFeaturesFrame lags rolls levels f
      = levels.foldl (fun fr L =>
          if L.gby == [idStr] then addLagRollFrame fr [idStr] salesStr L.pfx lags rolls
          else mergeLeftFrame fr (selectColsFrame
              (addLagRollFrame (aggregatedSalesFrame fr L.gby L.pfx) L.gby (aggName L.pfx)
                L.pfx lags rolls)
              (L.gby ++ [dateStr] ++
                (addLagRollFrame (aggregatedSalesFrame fr L.gby L.pfx) L.gby (aggName L.pfx)
                  L.pfx lags rolls).cols.filter
                  (fun c => List.isPrefixOf (L.pfx ++ ['_']) c)))
            (L.gby ++ [dateStr]))
        (dateFeaturesFrame (encodeCategoricalFrame f)) := rfl

/-- The per-level fold of `create_all_features` appends exactly each
level's lag/rolling names, keeping every pre-existing cell (up to the
row reorderings of the per-level sorts) and the row count. -/
theorem levels_fold_op (lags rolls : List Nat) :
    ∀ (levels : List HLevel) (fr : Frame) (n : Nat),
    WF fr → n ≤ fr.cols.length →
    (∀ L ∈ levels, ∀ nm ∈ lrNames lags rolls L, ¬ nm ∈ fr.cols) →
    ((levels.bind (lrNames lags rolls)).Nodup) →
    (∀ L ∈ levels, (L.gby == [idStr]) = false →
        ∀ c ∈ L.gby ++ [dateStr, aggName L.pfx],
          List.isPrefixOf (L.pfx ++ ['_']) c = false) →
    (levels.foldl (fun fr L =>
          if L.gby == [idStr] then addLagRollFrame fr [idStr] salesStr L.pfx lags rolls
          else mergeLeftFrame fr (selectColsFrame
              (addLagRollFrame (aggregatedSalesFrame fr L.gby L.pfx) L.gby (aggName L.pfx)
                L.pfx lags rolls)
              (L.gby ++ [dateStr] ++
                (addLagRollFrame (aggregatedSalesFrame fr L.gby L.pfx) L.gby (aggName L.pfx)
                  L.pfx lags rolls).cols.filter
                  (fun c => List.isPrefixOf (L.pfx ++ ['_']) c)))
            (L.gby ++ [dateStr])) fr).cols
        = fr.cols ++ levels.bind (lrNames lags rolls)
    ∧ List.Perm ((levels.foldl (fun fr L =>
          if L.gby == [idStr] then addLagRollFrame fr [idStr] salesStr L.pfx lags rolls
          else mergeLeftFrame fr (selectColsFrame
              (addLagRollFrame (aggregatedSalesFrame fr L.gby L.pfx) L.gby (aggName L.pfx)
                L.pfx lags rolls)
              (L.gby ++ [dateStr] ++
                (addLagRollFrame (aggregatedSalesFrame fr L.gby L.pfx) L.gby (aggName L.pfx)
                  L.pfx lags rolls).cols.filter
                  (fun c => List.isPrefixOf (L.pfx ++ ['_']) c)))
            (L.gby ++ [dateStr])) fr).rows.map (fun r => r.take n))
        (fr.rows.map (fun r => r.take n))
    ∧ WF (levels.foldl (fun fr L =>
          if L.gby == [idStr] then addLagRollFrame fr [idStr] salesStr L.pfx lags rolls
          else mergeLeftFrame fr (selectColsFrame
              (addLagRollFrame (aggregatedSalesFrame fr L.gby L.pfx) L.gby (aggName L.pfx)
                L.pfx lags rolls)
              (L.gby ++ [dateStr] ++
                (addLagRollFrame (aggregatedSalesFrame fr L.gby L.pfx) L.gby (aggName L.pfx)
                  L.pfx lags rolls).cols.filter
                  (fun c => List.isPrefixOf (L.pfx ++ ['_']) c)))
            (L.gby ++ [dateStr])) fr)
    ∧ (levels.foldl (fun fr L =>
          if L.gby == [idStr] then addLagRollFrame fr [idStr] salesStr L.pfx lags rolls
          else mergeLeftFrame fr (selectColsFrame
              (addLagRollFrame (aggregatedSalesFrame fr L.gby L.pfx) L.gby (aggName L.pfx)
                L.pfx lags rolls)
              (L.gby ++ [dateStr] ++
                (addLagRollFrame (aggregatedSalesFrame fr L.gby L.pfx) L.gby (aggName L.pfx)
                  L.pfx lags rolls).cols.filter
                  (fun c => List.isPrefixOf (L.pfx ++ ['_']) c)))
            (L.gby ++ [dateStr])) fr).rows.length = fr.rows.length := by
  intro levels
  induction levels with
  | nil =>
    intro fr n hwf _ _ _ _
    exact ⟨by simp, List.Perm.refl _, hwf, rfl⟩
  | cons L ts ih =>
    intro fr n hwf hn hfresh hnodup hfil
    rw [List.foldl_cons]
    have hbindc : ((L :: ts).bind (lrNames lags rolls))
        = lrNames lags rolls L ++ ts.bind (lrNames lags rolls) := rfl
    have hndA := List.nodup_append.mp (hbindc ▸ hnodup)
    have hfil2 : ∀ L2 ∈ ts, (L2.gby == [idStr]) = false →
        ∀ c ∈ L2.gby ++ [dateStr, aggName L2.pfx],
          List.isPrefixOf (L2.pfx ++ ['_']) c = false :=
      fun L2 hL2 => hfil L2 (List.mem_cons_of_mem _ hL2)
    cases hid : (L.gby == [idStr]) with
    | true =>
      rw [if_pos rfl]
      have hfr : ∀ nm ∈ lags.map (lagName L.pfx) ++ rolls.map (rollName L.pfx),
          ¬ nm ∈ fr.cols :=
        fun nm hnm => hfresh L (List.mem_cons_self _ _) nm hnm
      have hndL : (lags.map (lagName L.pfx) ++ rolls.map (rollName L.pfx)).Nodup := hndA.1
      obtain ⟨hc1, hc2, hc3, hc4⟩ :=
        addLagRoll_op fr [idStr] salesStr L.pfx lags rolls n hwf hn hfr hndL
      have hn2 : n ≤ (addLagRollFrame fr [idStr] salesStr L.pfx lags rolls).cols.length := by
        rw [hc1, List.length_append]
        omega
      have hfresh2 : ∀ L2 ∈ ts, ∀ nm ∈ lrNames lags rolls L2,
          ¬ nm ∈ (addLagRollFrame fr [idStr] salesStr L.pfx lags rolls).cols := by
        intro L2 hL2 nm hnm hmem
        rw [hc1] at hmem
        rcases List.mem_append.mp hmem with h | h
        · exact hfresh L2 (List.mem_cons_of_mem _ hL2) nm hnm h
        · exact hndA.2.2 h (List.mem_bind.mpr ⟨L2, hL2, hnm⟩)
      obtain ⟨ih1, ih2, ih3, ih4⟩ := ih (addLagRollFrame fr [idStr] salesStr L.pfx lags rolls)
        n hc3 hn2 hfresh2 hndA.2.1 hfil2
      refine ⟨?_, ih2.trans hc2, ih3, ih4.trans hc4⟩
      rw [ih1, hc1, List.append_assoc, hbindc]
      rfl
    | false =>
      rw [if_neg (by simp)]
      have hfilL := hfil L (List.mem_cons_self _ _) hid
      obtain ⟨hc1, hc2, hc3, hc4⟩ := level_merge_op fr L lags rolls n hwf hn hfilL hndA.1
      have hn2 : n ≤ (mergeLeftFrame fr (selectColsFrame
          (addLagRollFrame (aggregatedSalesFrame fr L.gby L.pfx) L.gby (aggName L.pfx)
            L.pfx lags rolls)
          (L.gby ++ [dateStr] ++
            (addLagRollFrame (aggregatedSalesFrame fr L.gby L.pfx) L.gby (aggName L.pfx)
              L.pfx lags rolls).cols.filter
              (fun c => List.isPrefixOf (L.pfx ++ ['_']) c)))
        (L.gby ++ [dateStr])).cols.length := by
        rw [hc1, List.length_append]
        omega
      have hfresh2 : ∀ L2 ∈ ts, ∀ nm ∈ lrNames lags rolls L2,
          ¬ nm ∈ (mergeLeftFrame fr (selectColsFrame
            (addLagRollFrame (aggregatedSalesFrame fr L.gby L.pfx) L.gby (aggName L.pfx)
              L.pfx lags rolls)
            (L.gby ++ [dateStr] ++
              (addLagRollFrame (aggregatedSalesFrame fr L.gby L.pfx) L.gby (aggName L.pfx)
                L.pfx lags rolls).cols.filter
                (fun c => List.isPrefixOf (L.pfx ++ ['_']) c)))
          (L.gby ++ [dateStr])).cols := by
        intro L2 hL2 nm hnm hmem
        rw [hc1] at hmem
        rcases List.mem_append.mp hmem with h | h
        · exact hfresh L2 (List.mem_cons_of_mem _ hL2) nm hnm h
        · exact hndA.2.2 h (List.mem_bind.mpr ⟨L2, hL2, hnm⟩)
      obtain ⟨ih1, ih2, ih3, ih4⟩ := ih (mergeLeftFrame fr (selectColsFrame
          (addLagRollFrame (aggregatedSalesFrame fr L.gby L.pfx) L.gby (aggName L.pfx)
            L.pfx lags rolls)
          (L.gby ++ [dateStr] ++
            (addLagRollFrame (aggregatedSalesFrame fr L.gby L.pfx) L.gby (aggName L.pfx)
              L.pfx lags rolls).cols.filter
              (fun c => List.isPrefixOf (L.pfx ++ ['_']) c)))
        (L.gby ++ [dateStr])) n hc3 hn2 hfresh2 hndA.2.1 hfil2
      refine ⟨?_, ih2.trans (hc2 ▸ List.Perm.refl _), ih3, ih4.trans hc4⟩
      rw [ih1, hc1, List.append_assoc, hbindc]

/-- The witness panel: a one-row frame with the merge keys, signal and
calendar columns. -/
def cfPanel : Frame :=
  ⟨["id", "date", "sales", "wday", "store_id"].map String.toList,
   [[some 1, some 2, some 3, some 4, some 5]]⟩

/-- The witness hierarchy: the bottom (per-`id`) level and one store-level
aggregate. -/
def cfLevels : List HLevel :=
  [⟨[idStr], "item".toList⟩, ⟨["store_id".toList], "st".toList⟩]

/-- C10 (amended): for fresh, non-colliding feature-name configurations,
`create_all_features` returns a frame whose columns are the input panel's
columns followed by the added ones, whose rows are exactly the input rows
with every pre-existing cell unchanged — none removed, none duplicated,
though reordered by the per-level sorts; but the claim's "does not mutate
the caller's input panel" is false: the `_enc` and `is_weekend`
assignments are applied in place, so the caller's frame gains those
columns (its pre-existing columns, cells and rows staying intact). -/
theorem c10_create_all_features (f0 : Frame) (lags rolls : List Nat) (levels : List HLevel)
    (hwf : WF f0)
    (hencfresh : ∀ c ∈ catCols, ¬ encName c ∈ f0.cols)
    (hiw : ¬ iwStr ∈ f0.cols)
    (hlr : ∀ L ∈ levels, ∀ nm ∈ lrNames lags rolls L,
        ¬ nm ∈ f0.cols ∧ (∀ c ∈ catCols, nm ≠ encName c) ∧ nm ≠ iwStr)
    (hnodup : (levels.bind (lrNames lags rolls)).Nodup)
    (hfil : ∀ L ∈ levels, (L.gby == [idStr]) = false →
        ∀ c ∈ L.gby ++ [dateStr, aggName L.pfx],
          List.isPrefixOf (L.pfx ++ ['_']) c = false) :
    (∃ added : List Str,
      (∀ nm ∈ added, nm ∈ catCols.map encName)
      ∧ (createAllFeaturesFrame lags rolls levels f0).cols
          = f0.cols ++ added ++ [iwStr] ++ levels.bind (lrNames lags rolls)
      ∧ List.Perm ((createAllFeaturesFrame lags rolls levels f0).rows.map
          (fun r => r.take f0.cols.length)) f0.rows
      ∧ (createAllFeaturesFrame lags rolls levels f0).rows.length = f0.rows.length)
    ∧ ((callerAfter f0).rows.map (fun r => r.take f0.cols.length) = f0.rows
      ∧ (callerAfter f0).cols.take f0.cols.length = f0.cols
      ∧ f0.cols.length < (callerAfter f0).cols.length) := by
  obtain ⟨added, he1, he2, he3, he4, he5⟩ :=
    encode_fold_op catCols f0 f0.cols.length hwf (Nat.le_refl _) hencfresh (by decide)
  have hE1 : (encodeCategoricalFrame f0).cols = f0.cols ++ added := he1
  have hE3 : (encodeCategoricalFrame f0).rows.map (fun r => r.take f0.cols.length)
      = f0.rows.map (fun r => r.take f0.cols.length) := he3
  have hE4 : WF (encodeCategoricalFrame f0) := he4
  have hE5 : (encodeCategoricalFrame f0).rows.length = f0.rows.length := he5
  have hiw2 : ¬ iwStr ∈ (encodeCategoricalFrame f0).cols := by
    rw [hE1]
    intro hmem
    rcases List.mem_append.mp hmem with h | h
    · exact hiw h
    · have h2 : iwStr ∈ catCols.map encName := he2 _ h
      revert h2
      decide
  obtain ⟨hd1, hd2, hd3, hd4⟩ := dateFeatures_op (encodeCategoricalFrame f0) f0.cols.length
    hE4 (by rw [hE1, List.length_append]; omega) hiw2
  have hf2c : (dateFeaturesFrame (encodeCategoricalFrame f0)).cols
      = f0.cols ++ added ++ [iwStr] := by
    rw [hd1, hE1]
  have hlf : ∀ L ∈ levels, ∀ nm ∈ lrNames lags rolls L,
      ¬ nm ∈ (dateFeaturesFrame (encodeCategoricalFrame f0)).cols := by
    intro L hL nm hnm hmem
    obtain ⟨hx, hy, hz⟩ := hlr L hL nm hnm
    rw [hf2c] at hmem
    rcases List.mem_append.mp hmem with h | h
    · rcases List.mem_append.mp h with h2 | h2
      · exact hx h2
      · obtain ⟨c, hc, hce⟩ := List.mem_map.mp (he2 _ h2)
        exact hy c hc hce.symm
    · have he : nm = iwStr := by simpa using h
      exact hz he
  obtain ⟨hl1, hl2, hl3, hl4⟩ := levels_fold_op lags rolls levels
    (dateFeaturesFrame (encodeCategoricalFrame f0)) f0.cols.length hd3
    (by rw [hf2c, List.length_append, List.length_append]; omega) hlf hnodup hfil
  have htake : f0.rows.map (fun r => r.take f0.cols.length) = f0.rows := by
    have h1 : ∀ r ∈ f0.rows, r.take f0.cols.length = id r := by
      intro r hr
      show r.take f0.cols.length = r
      rw [← hwf r hr]
      exact List.take_length r
    rw [List.map_congr_left h1]
    simp
  refine ⟨⟨added, he2, ?_, ?_, ?_⟩, ?_, ?_, ?_⟩
  · rw [createAllFeaturesFrame_eq, hl1, hf2c]
  · rw [createAllFeaturesFrame_eq]
    have hperm := hl2
    rw [hd2, hE3, htake] at hperm
    exact hperm
  · rw [createAllFeaturesFrame_eq, hl4, hd4, hE5]
  · show (dateFeaturesFrame (encodeCategoricalFrame f0)).rows.map
        (fun r => r.take f0.cols.length) = f0.rows
    rw [hd2, hE3, htake]
  · show (dateFeaturesFrame (encodeCategoricalFrame f0)).cols.take f0.cols.length = f0.cols
    rw [hf2c, List.take_append_eq_append_take, List.take_append_eq_append_take]
    have e1 : f0.cols.length - f0.cols.length = 0 := by omega
    have e2 : f0.cols.length - (f0.cols ++ added).length = 0 := by
      rw [List.length_append]
      omega
    rw [e1, e2, List.take_length]
    simp
  · show f0.cols.length < (dateFeaturesFrame (encodeCategoricalFrame f0)).cols.length
    rw [hf2c, List.length_append, List.length_append]
    have e3 : ([iwStr] : List Str).length = 1 := rfl
    omega

/-- C10 witness: the amended theorem instantiated on the one-row panel and
the two-level hierarchy, every hypothesis discharged by computation. -/
theorem c10_create_all_features_witness :
    (∃ added : List Str,
      (∀ nm ∈ added, nm ∈ catCols.map encName)
      ∧ (createAllFeaturesFrame [1] [2] cfLevels cfPanel).cols
          = cfPanel.cols ++ added ++ [iwStr] ++ cfLevels.bind (lrNames [1] [2])
      ∧ List.Perm ((createAllFeaturesFrame [1] [2] cfLevels cfPanel).rows.map
          (fun r => r.take cfPanel.cols.length)) cfPanel.rows
      ∧ (createAllFeaturesFrame [1] [2] cfLevels cfPanel).rows.length
          = cfPanel.rows.length)
    ∧ ((callerAfter cfPanel).rows.map (fun r => r.take cfPanel.cols.length) = cfPanel.rows
      ∧ (callerAfter cfPanel).cols.take cfPanel.cols.length = cfPanel.cols
      ∧ cfPanel.cols.length < (callerAfter cfPanel).cols.length) :=
  c10_create_all_features cfPanel [1] [2] cfLevels (by unfold WF; decide) (by decide)
    (by decide) (by decide) (by decide) (by decide)

end M5
